/-
  Verification of the FJSSP-SLGA repository against its specification.

  The Python sources are shallowly embedded: dictionaries become structures,
  lists become `List`, in-place loops become folds or structural recursions,
  and code paths that raise exceptions in Python are modelled by `Option`
  (with `none` standing for the raised exception).  Random draws
  (`random.randint`, `random.sample`, `random.choice`, ...) are passed in as
  explicit parameters, so every theorem quantifies over all possible draws.
-/
import Mathlib

/-! ## Data model (src/utils/parser.py produces this shape)

  An operation is a list of machine options; a job is a list of operations;
  `pb_instance` is a dictionary with keys `machinesNb` and `jobs`. -/

structure MachineOption where
  machine : ℕ          -- 1-based machine id, key 'machine'
  processingTime : ℕ   -- key 'processingTime'
deriving DecidableEq, Repr

structure PbInstance where
  machinesNb : ℕ
  jobs : List (List (List MachineOption))
deriving DecidableEq, Repr

/-- A scheduled operation, the tuple `(name_task, prcTime, start_cstr, start)`
  appended in `decode` (src/genetic/decoding.py line 133).  Field order follows
  the tuple: index 0 = name, 1 = duration, 2 = start constraint, 3 = start. -/
structure Placement where
  name : String
  duration : ℕ
  startCstr : ℕ
  start : ℕ
deriving DecidableEq, Repr

/-! ## src/genetic/decoding.py -/

/-- `split_ms` (decoding.py lines 10-23): split the ms vector into per-job
  slices `ms[current:current+len(job)]`, advancing `current` by `len(job)`. -/
def splitMsGo : List (List (List MachineOption)) → List ℕ → List (List ℕ)
  | [], _ => []
  | job :: rest, ms => ms.take job.length :: splitMsGo rest (ms.drop job.length)

def split_ms (pb : PbInstance) (ms : List ℕ) : List (List ℕ) :=
  splitMsGo pb.jobs ms

/-- `is_free` (decoding.py lines 49-60): all slots in `[start, start+duration)`
  are free.  Python reads `tab[k]`; on the inputs reachable from
  `find_first_available_place` every read index is in range (proved below), so
  the `getD` default is never the deciding value there. -/
def is_free (tab : List Bool) (start duration : ℕ) : Bool :=
  (List.range' start duration).all fun k => tab.getD k false

/-- `max(max_duration_list)` for the nonempty machine-job list:
  the largest `job[3] + job[1]` (start + processing time). -/
def maxEnds : List Placement → ℕ
  | [] => 0
  | p :: rest => (maxEnds rest).max (p.start + p.duration)

/-- The inner marking loop: `for k in range(start, start + long): machine_used[k] = False`. -/
def markInterval (tab : List Bool) (start len : ℕ) : List Bool :=
  (List.range' start len).foldl (fun t k => t.set k false) tab

/-- The outer marking loop of `find_first_available_place` (lines 89-93). -/
def markUsed (machine_jobs : List Placement) (tab : List Bool) : List Bool :=
  machine_jobs.foldl (fun t p => markInterval t p.start p.duration) tab

/-- `find_first_available_place` (decoding.py lines 68-98).  Python returns
  `None` implicitly when the final scan loop finds nothing; we return `none`.
  (For `duration = 0` and a machine whose placements all end by `start_ctr`
  the scan range is empty, so `none` is reachable.) -/
def find_first_available_place (start_ctr duration : ℕ)
    (machine_jobs : List Placement) : Option ℕ :=
  let max_duration :=
    if machine_jobs.isEmpty then start_ctr + duration
    else (maxEnds machine_jobs).max start_ctr + duration
  let machine_used := markUsed machine_jobs (List.replicate max_duration true)
  (List.range' start_ctr (max_duration - start_ctr)).find? fun k =>
    is_free machine_used k duration

/-- `"OP_{}-{}".format(job + 1, indexes[job] + 1)` (decoding.py line 131). -/
def name_task (job k : ℕ) : String :=
  "OP_" ++ toString (job + 1) ++ "-" ++ toString (k + 1)

/-- The three mutable locals of `decode`: `machine_operations`, `indexes`,
  `start_task_cstr`. -/
structure DecodeState where
  machineOps : List (List Placement)
  indexes : List ℕ
  startTaskCstr : List ℕ
deriving DecidableEq, Repr

/-- One iteration of the `for job in os` loop of `decode` (lines 123-137).
  All list lookups are in range under the legality invariants (hypotheses of
  the theorems below); `none` is returned exactly when
  `find_first_available_place` yields `None` (on which Python would then
  crash in `start + prcTime`). -/
def decodeStep (o : List (List (List MachineOption))) (ms_s : List (List ℕ))
    (st : DecodeState) (job : ℕ) : Option DecodeState :=
  let k := st.indexes.getD job 0
  let index_machine := (ms_s.getD job []).getD k 0
  let opt := ((o.getD job []).getD k []).getD index_machine ⟨0, 0⟩
  let machine := opt.machine
  let prcTime := opt.processingTime
  let start_cstr := st.startTaskCstr.getD job 0
  match find_first_available_place start_cstr prcTime
      (st.machineOps.getD (machine - 1) []) with
  | none => none
  | some start =>
    some { machineOps := st.machineOps.set (machine - 1)
             ((st.machineOps.getD (machine - 1) []) ++
               [⟨name_task job k, prcTime, start_cstr, start⟩]),
           indexes := st.indexes.set job (k + 1),
           startTaskCstr := st.startTaskCstr.set job (start + prcTime) }

def decodeLoop (o : List (List (List MachineOption))) (ms_s : List (List ℕ)) :
    List ℕ → DecodeState → Option DecodeState
  | [], st => some st
  | j :: rest, st =>
    match decodeStep o ms_s st j with
    | none => none
    | some st' => decodeLoop o ms_s rest st'

/-- `decode` (decoding.py lines 106-139). -/
def decode (pb : PbInstance) (os ms : List ℕ) : Option (List (List Placement)) :=
  let ms_s := split_ms pb ms
  let init : DecodeState :=
    ⟨List.replicate pb.machinesNb [], List.replicate ms_s.length 0,
      List.replicate ms_s.length 0⟩
  (decodeLoop pb.jobs ms_s os init).map (·.machineOps)

/-- `translate_decoded_to_gantt` (decoding.py lines 146-164): per machine, in
  list order, the triple `[start, start + duration, name]`, keyed by
  `"Machine-{idx+1}"` (dict insertion order = machine index order). -/
def translate_decoded_to_gantt (machine_operations : List (List Placement)) :
    List (String × List (ℕ × ℕ × String)) :=
  machine_operations.enum.map fun im =>
    ("Machine-" ++ toString (im.1 + 1),
      im.2.map fun op => (op.start, op.start + op.duration, op.name))

/-! ## src/genetic/genetic.py — fitness and selection

  OS chromosomes handled by the OS operators are embedded as `List ℤ` (the
  Python code uses `-1` as a fill sentinel); the decoder-facing chromosomes
  are `List ℕ` (job indices / option indices). -/

/-- Python `max` over a nonempty list of naturals; `max([])` raises, modelled
  by `none`. -/
def pymaxNat : List ℕ → Option ℕ
  | [] => none
  | x :: xs => some (xs.foldl Nat.max x)

/-- Per-machine inner loop of `timeTaken` (genetic.py lines 28-34):
  running maximum of `job[3] + job[1]` starting from 0. -/
def maxPerMachine (machine : List Placement) : ℕ :=
  machine.foldl (fun max_d job =>
    if job.start + job.duration > max_d then job.start + job.duration else max_d) 0

/-- `timeTaken` (genetic.py lines 16-36): decode, then the maximum end time
  over all machines.  `none` models the Python exceptions (decode crash, or
  `max` of an empty machine list when `machinesNb = 0`). -/
def timeTaken (pb : PbInstance) (os_ms : List ℕ × List ℕ) : Option ℕ := do
  let decoded ← decode pb os_ms.1 os_ms.2
  pymaxNat (decoded.map maxPerMachine)

/-- The sort / min key used by selection.  On the legal inputs of the claims
  `timeTaken` always returns `some`, where this equals the Python key. -/
def timeTakenD (pb : PbInstance) (c : List ℕ × List ℕ) : ℕ :=
  (timeTaken pb c).getD 0

/-- `elitistSelection` (genetic.py lines 43-52).  `kp` stands for
  `int(config.pr * len(population))`, whose exact value goes through Python
  float multiplication; the claims hold for every value of `kp`.
  `sorted` is Python's stable sort by key, embedded as a stable insertion
  sort. -/
def elitistSelection (pb : PbInstance) (kp : ℕ) (population : List (List ℕ × List ℕ)) :
    List (List ℕ × List ℕ) :=
  (population.insertionSort fun a b => timeTakenD pb a ≤ timeTakenD pb b).take kp

/-- `tournamentSelection` (genetic.py lines 54-68) with `b = 2`: draw the
  individuals at indices `i1`, `i2` (the two `random.randint` results) and
  keep the fitter; Python's `min` returns the first element on ties. -/
def tournamentSelection (pb : PbInstance) (population : List (List ℕ × List ℕ))
    (i1 i2 : ℕ) : List ℕ × List ℕ :=
  let a := population.getD i1 ([], [])
  let b := population.getD i2 ([], [])
  if timeTakenD pb b < timeTakenD pb a then b else a

/-- `selection` (genetic.py lines 70-81): the elitist slice, then append
  tournament winners until the original size is restored.  `draws t` supplies
  the index pair of the `t`-th tournament. -/
def selection (pb : PbInstance) (kp : ℕ) (population : List (List ℕ × List ℕ))
    (draws : ℕ → ℕ × ℕ) : List (List ℕ × List ℕ) :=
  let newPop := elitistSelection pb kp population
  newPop ++ (List.range (population.length - newPop.length)).map fun t =>
    tournamentSelection pb population (draws t).1 (draws t).2

/-! ## src/genetic/genetic.py — OS crossovers -/

/-- Phase 1 of `precedenceOperationCrossover` (lines 102-120): keep elements
  of `jobset1`, write `-1` elsewhere, and collect the skipped elements in
  order. -/
def keepPhase (jobset1 : List ℤ) : List ℤ → List ℤ × List ℤ
  | [] => ([], [])
  | e :: rest =>
    let or := keepPhase jobset1 rest
    if e ∈ jobset1 then (e :: or.1, or.2) else (-1 :: or.1, e :: or.2)

/-- Phase 2 of both OS crossovers (lines 122-128 / 168-174): replace each
  `-1` by the next element popped from the queue.  `q.pop(0)` on an empty
  queue raises `IndexError`, modelled by `none`. -/
def fillFrom : List ℤ → List ℤ → Option (List ℤ)
  | [], _ => some []
  | x :: xs, q =>
    if x = -1 then
      match q with
      | [] => none
      | y :: q' => (fillFrom xs q').map (y :: ·)
    else (fillFrom xs q).map (x :: ·)

/-- `precedenceOperationCrossover` (genetic.py lines 87-130).  `jobset1`
  stands for `random.sample(range(1, jobNumber + 1), sizeJobset1)`; the
  theorems quantify over every possible sample. -/
def precedenceOperationCrossover (jobset1 : List ℤ) (p1 p2 : List ℤ) :
    Option (List ℤ × List ℤ) := do
  let r1 := keepPhase jobset1 p1
  let r2 := keepPhase jobset1 p2
  let o1 ← fillFrom r1.1 r2.2
  let o2 ← fillFrom r2.1 r1.2
  return (o1, o2)

/-- Phase 1 of `jobBasedCrossover` (lines 148-166): keep (and also record)
  the elements of the given job set, write `-1` elsewhere. -/
def jbxKeep (jobset : List ℤ) : List ℤ → List ℤ × List ℤ
  | [] => ([], [])
  | e :: rest =>
    let or := jbxKeep jobset rest
    if e ∈ jobset then (e :: or.1, e :: or.2) else (-1 :: or.1, or.2)

/-- `jobBasedCrossover` (genetic.py lines 132-176).  `jobset1` stands for
  `random.sample(range(0, jobNumber), sizeJobset1)`; `jobset2` is its
  complement in `range(0, jobNumber)` as computed by the source. -/
def jobBasedCrossover (jobNumber : ℕ) (jobset1 : List ℤ) (p1 p2 : List ℤ) :
    Option (List ℤ × List ℤ) := do
  let jobsRange := (List.range jobNumber).map (fun i : ℕ => (i : ℤ))
  let jobset2 := jobsRange.filter fun e => decide (e ∉ jobset1)
  let r1 := jbxKeep jobset1 p1
  let r2 := jbxKeep jobset2 p2
  let o1 ← fillFrom r1.1 r2.2
  let o2 ← fillFrom r2.1 r1.2
  return (o1, o2)

/-- `twoPointCrossover` (genetic.py lines 178-199): `pos1`, `pos2` are the two
  `random.randint(0, len(p1) - 1)` draws, swapped when out of order; equal
  positions return the parents unchanged, otherwise Python slice splicing. -/
def twoPointCrossover (p1 p2 : List ℕ) (pos1 pos2 : ℕ) : List ℕ × List ℕ :=
  let a := if pos1 > pos2 then pos2 else pos1
  let b := if pos1 > pos2 then pos1 else pos2
  if a ≠ b then
    (p1.take a ++ (p2.drop a).take (b - a) ++ p1.drop b,
     p2.take a ++ (p1.drop a).take (b - a) ++ p2.drop b)
  else (p1, p2)

/-- `crossoverOS` (genetic.py lines 201-212): `choice` is the
  `random.choice([True, False])` draw. -/
def crossoverOS (jobNumber : ℕ) (choice : Bool) (jobset1 : List ℤ)
    (p1 p2 : List ℤ) : Option (List ℤ × List ℤ) :=
  if choice then precedenceOperationCrossover jobset1 p1 p2
  else jobBasedCrossover jobNumber jobset1 p1 p2

/-- The random draws consumed per population pair in `crossover`. -/
structure PairRand where
  doCross : Bool     -- random.random() < pc
  osChoice : Bool    -- POX vs JBX inside crossoverOS
  jobset1 : List ℤ   -- the sampled job set
  pos1 : ℕ           -- twoPointCrossover draws
  pos2 : ℕ

def pairRand0 : PairRand := ⟨false, false, [], 0, 0⟩

/-- `crossover` (genetic.py lines 223-247): walk the population two at a time;
  `population[i + 1]` raises `IndexError` on a trailing singleton, modelled by
  the `[_]` case returning `none`. -/
def crossover (jobNumber : ℕ) (rnd : ℕ → PairRand) :
    ℕ → List (List ℤ × List ℕ) → Option (List (List ℤ × List ℕ))
  | _, [] => some []
  | _, [_] => none
  | t, c1 :: c2 :: rest =>
    let r := rnd t
    if r.doCross then do
      let os12 ← crossoverOS jobNumber r.osChoice r.jobset1 c1.1 c2.1
      let ms12 := twoPointCrossover c1.2 c2.2 r.pos1 r.pos2
      let tail ← crossover jobNumber rnd (t + 1) rest
      return (os12.1, ms12.1) :: (os12.2, ms12.2) :: tail
    else do
      let tail ← crossover jobNumber rnd (t + 1) rest
      return c1 :: c2 :: tail

/-! ## src/genetic/genetic.py — mutation operators -/

/-- `swappingMutation` (genetic.py lines 253-272): `pos1`, `pos2` are the two
  `random.randint(0, len(p) - 1)` draws; equal positions return `p`
  unchanged, otherwise the two slots are exchanged by slice splicing. -/
def swappingMutation (p : List ℤ) (pos1 pos2 : ℕ) : List ℤ :=
  if pos1 = pos2 then p
  else
    let a := if pos1 > pos2 then pos2 else pos1
    let b := if pos1 > pos2 then pos1 else pos2
    p.take a ++ [p.getD b 0] ++ (p.drop (a + 1)).take (b - (a + 1)) ++
      [p.getD a 0] ++ p.drop (b + 1)

/-- The `while p[pos2] == p[pos1]` loop of `neighborhoodMutation`
  (genetic.py lines 282-283).  `draws` supplies the successive
  `random.randint(0, len(p) - 1)` results and `t` counts the draws consumed.
  The Python loop is unbounded; `fuel` bounds the embedding, and a result of
  `none` at every fuel value means the source loop never exits. -/
def loopPos2 (p : List ℤ) (pos1 : ℕ) (draws : ℕ → ℕ) :
    ℕ → ℕ → ℕ → Option (ℕ × ℕ)
  | 0, _, _ => none
  | fuel + 1, pos2, t =>
    if p.getD pos2 0 = p.getD pos1 0 then loopPos2 p pos1 draws fuel (draws t) (t + 1)
    else some (pos2, t)

/-- The `while p[pos3] == p[pos2] or p[pos3] == p[pos1]` loop
  (genetic.py lines 285-286). -/
def loopPos3 (p : List ℤ) (pos1 pos2 : ℕ) (draws : ℕ → ℕ) :
    ℕ → ℕ → ℕ → Option (ℕ × ℕ)
  | 0, _, _ => none
  | fuel + 1, pos3, t =>
    if p.getD pos3 0 = p.getD pos2 0 ∨ p.getD pos3 0 = p.getD pos1 0 then
      loopPos3 p pos1 pos2 draws fuel (draws t) (t + 1)
    else some (pos3, t)

/-- `itertools.permutations([e1, e2, e3])` in itertools order. -/
def perms3 (e1 e2 e3 : ℤ) : List (List ℤ) :=
  [[e1, e2, e3], [e1, e3, e2], [e2, e1, e3], [e2, e3, e1], [e3, e1, e2], [e3, e2, e1]]

/-- `neighborhoodMutation` (genetic.py lines 274-305).  `pos1` is the initial
  `random.randint` draw (also the initial value of `pos2` and `pos3`),
  `draws` the subsequent draws, `permChoice` the `random.choice` index into
  the 6 permutations.  The two position-sampling loops have no retry bound in
  the source; they are embedded with `fuel`, and returning `none` for every
  `fuel` exhibits their divergence. -/
def neighborhoodMutation (p : List ℤ) (pos1 : ℕ) (draws : ℕ → ℕ)
    (permChoice : ℕ) (fuel : ℕ) : Option (List ℤ) := do
  let (pos2, t) ← loopPos2 p pos1 draws fuel pos1 0
  let (pos3, _) ← loopPos3 p pos1 pos2 draws fuel pos1 t
  let s := [pos1, pos2, pos3].mergeSort (fun a b => a ≤ b)
  let q1 := s.getD 0 0
  let q2 := s.getD 1 0
  let q3 := s.getD 2 0
  let e1 := p.getD q1 0
  let e2 := p.getD q2 0
  let e3 := p.getD q3 0
  let perm := (perms3 e1 e2 e3).getD permChoice []
  return p.take q1 ++ [perm.getD 0 0] ++ (p.drop (q1 + 1)).take (q2 - (q1 + 1)) ++
    [perm.getD 1 0] ++ (p.drop (q2 + 1)).take (q3 - (q2 + 1)) ++
    [perm.getD 2 0] ++ p.drop (q3 + 1)

/-- `mutationOS` (genetic.py lines 331-340): an unconditional 50/50 coin
  between swapping and neighborhood mutation — there is no fallback from the
  neighborhood branch.  `swapPos1`, `swapPos2` are the draws used by the
  swapping branch. -/
def mutationOS (choice : Bool) (p : List ℤ) (swapPos1 swapPos2 pos1 : ℕ)
    (draws : ℕ → ℕ) (permChoice : ℕ) (fuel : ℕ) : Option (List ℤ) :=
  if choice then some (swappingMutation p swapPos1 swapPos2)
  else neighborhoodMutation p pos1 draws permChoice fuel

/-- `halfMutation` (genetic.py lines 307-329).  `positions` is the
  `random.sample(range(size), int(size/2))` result and `draws i` the
  `random.randint(0, len(op) - 1)` drawn when position `i` is selected.  The
  nested `for job in jobs: for op in job` loop visits the operations in
  job-major order, i.e. `jobs.flatten`.  The source sets `o = p` — `o` is an
  alias of the argument, not a copy — and then assigns `o[i]` in place, so
  the list object passed by the caller ends up holding exactly the returned
  contents. -/
def halfMutation (p : List ℕ) (jobs : List (List (List MachineOption)))
    (positions : List ℕ) (draws : ℕ → ℕ) : List ℕ :=
  jobs.flatten.enum.foldl
    (fun o iop => if iop.1 ∈ positions then o.set iop.1 (draws iop.1) else o) p

/-- The contents of the caller's MS list after `halfMutation` returns: because
  of the `o = p` aliasing and the in-place `o[i] = ...` assignments, the
  argument object holds the mutated list, not its original contents. -/
def halfMutationArgAfter (p : List ℕ) (jobs : List (List (List MachineOption)))
    (positions : List ℕ) (draws : ℕ → ℕ) : List ℕ :=
  halfMutation p jobs positions draws

/-! ## src/main.py — RL controller -/

/-- Python `max` over a row of the Q-table (`max(Q[next_state])` in
  `update_Q_qlearning`); rows always have the two action entries. -/
def pymaxQ : List ℚ → ℚ
  | [] => 0
  | x :: xs => xs.foldl max x

/-- `update_Q_sarsa` (main.py lines 23-25). -/
def update_Q_sarsa (Q : List (List ℚ)) (state action : ℕ) (reward : ℚ)
    (next_state next_action : ℕ) (alpha gamma : ℚ) : List (List ℚ) :=
  let v := (1 - alpha) * ((Q.getD state []).getD action 0) +
    alpha * (reward + gamma * ((Q.getD next_state []).getD next_action 0))
  Q.set state ((Q.getD state []).set action v)

/-- `update_Q_qlearning` (main.py lines 27-30). -/
def update_Q_qlearning (Q : List (List ℚ)) (state action : ℕ) (reward : ℚ)
    (next_state : ℕ) (alpha gamma : ℚ) : List (List ℚ) :=
  let max_Q_next := pymaxQ (Q.getD next_state [])
  let v := (1 - alpha) * ((Q.getD state []).getD action 0) +
    alpha * (reward + gamma * max_Q_next)
  Q.set state ((Q.getD state []).set action v)

/-- The value of the `use_sarsa` flag after the loop body of generation `g`
  has completed (`g = 0` is the initial `use_sarsa = True`, main.py line 149).
  The body's last step (line 219) sets the flag to `False` once
  `gen > len(population) * 10`; `n` is the population size. -/
def useSarsaAfter (n : ℕ) : ℕ → Bool
  | 0 => true
  | g + 1 => if g + 1 > n * 10 then false else useSarsaAfter n g

/-- The flag consulted by generation `g`'s Q update (main.py line 203) is the
  value left by the previous generation's body. -/
def genUpdateIsSarsa (n g : ℕ) : Bool :=
  useSarsaAfter n (g - 1)

/-- The Q-table update performed in generation `g` (main.py lines 203-206). -/
def qUpdateAt (n g : ℕ) (Q : List (List ℚ)) (state action : ℕ) (reward : ℚ)
    (next_state next_action : ℕ) (alpha gamma : ℚ) : List (List ℚ) :=
  if genUpdateIsSarsa n g then
    update_Q_sarsa Q state action reward next_state next_action alpha gamma
  else
    update_Q_qlearning Q state action reward next_state alpha gamma

/-- `reward = (best_time - new_best_time) / best_time` (main.py line 201).
  In Python a zero `best_time` raises `ZeroDivisionError`; there is no guard,
  so `none` models that failure. -/
def generationReward (best_time new_best_time : ℕ) : Option ℚ :=
  if best_time = 0 then none
  else some (((best_time : ℚ) - (new_best_time : ℚ)) / (best_time : ℚ))

/-! ## Legality invariants (spec §3) and statement vocabulary -/

/-- `total_ops = Σ |Job|`. -/
def totalOps (jobs : List (List (List MachineOption))) : ℕ :=
  (jobs.map List.length).sum

/-- Invariant (2) of spec §8 for the decoder-facing OS (`List ℕ`): length
  `total_ops`, entries are job indices, and job `j` occurs exactly
  `|jobs[j]|` times. -/
def osValid (jobs : List (List (List MachineOption))) (os : List ℕ) : Prop :=
  os.length = totalOps jobs ∧ (∀ e ∈ os, e < jobs.length) ∧
    ∀ j < jobs.length, os.count j = (jobs.getD j []).length

/-- The same invariant for the operator-facing OS (`List ℤ`). -/
def osValidZ (jobs : List (List (List MachineOption))) (os : List ℤ) : Prop :=
  os.length = totalOps jobs ∧ (∀ e ∈ os, 0 ≤ e ∧ e < (jobs.length : ℤ)) ∧
    ∀ j < jobs.length, os.count (j : ℤ) = (jobs.getD j []).length

/-- Invariant (3) of spec §8: every MS entry indexes into the option list of
  its operation, phrased through the per-job split used by the decoder. -/
def msValid (pb : PbInstance) (ms : List ℕ) : Prop :=
  ms.length = totalOps pb.jobs ∧
  ∀ j < pb.jobs.length,
    ((split_ms pb ms).getD j []).length = (pb.jobs.getD j []).length ∧
    ∀ k < (pb.jobs.getD j []).length,
      ((split_ms pb ms).getD j []).getD k 0 < ((pb.jobs.getD j []).getD k []).length

/-- Validity of an instance with positive processing times: every machine
  option names a machine in `[1, machinesNb]` and takes at least one time
  unit.  (The data model of spec §3 allows `processing_time = 0`; the decoder
  theorems require positivity — see the C1/C4 counterexamples.) -/
def pbValidPos (pb : PbInstance) : Prop :=
  ∀ job ∈ pb.jobs, ∀ op ∈ job, ∀ opt ∈ op,
    (1 ≤ opt.machine ∧ opt.machine ≤ pb.machinesNb) ∧ 1 ≤ opt.processingTime

/-- Some placed operation of `mj` is busy at instant `i`. -/
def covers (mj : List Placement) (i : ℕ) : Bool :=
  mj.any fun p => decide (p.start ≤ i ∧ i < p.start + p.duration)

/-! ## Instrumented decoder

  `decodeA` is `decode` with each placement additionally carrying the job
  index and operation index it was created from (the source only records
  them inside the `name_task` string); `C1_decoder` proves the projection
  back to `decode`. -/

structure PlacementA where
  job : ℕ
  opIdx : ℕ
  duration : ℕ
  startCstr : ℕ
  start : ℕ
deriving DecidableEq, Repr

def projPlacement (p : PlacementA) : Placement :=
  ⟨name_task p.job p.opIdx, p.duration, p.startCstr, p.start⟩

structure DecodeStateA where
  machineOps : List (List PlacementA)
  indexes : List ℕ
  startTaskCstr : List ℕ
deriving DecidableEq, Repr

def projState (st : DecodeStateA) : DecodeState :=
  ⟨st.machineOps.map (List.map projPlacement), st.indexes, st.startTaskCstr⟩

def decodeStepA (o : List (List (List MachineOption))) (ms_s : List (List ℕ))
    (st : DecodeStateA) (job : ℕ) : Option DecodeStateA :=
  let k := st.indexes.getD job 0
  let index_machine := (ms_s.getD job []).getD k 0
  let opt := ((o.getD job []).getD k []).getD index_machine ⟨0, 0⟩
  let machine := opt.machine
  let prcTime := opt.processingTime
  let start_cstr := st.startTaskCstr.getD job 0
  match find_first_available_place start_cstr prcTime
      ((st.machineOps.getD (machine - 1) []).map projPlacement) with
  | none => none
  | some start =>
    some ⟨st.machineOps.set (machine - 1)
            ((st.machineOps.getD (machine - 1) []) ++
              [⟨job, k, prcTime, start_cstr, start⟩]),
          st.indexes.set job (k + 1),
          st.startTaskCstr.set job (start + prcTime)⟩

def decodeLoopA (o : List (List (List MachineOption))) (ms_s : List (List ℕ)) :
    List ℕ → DecodeStateA → Option DecodeStateA
  | [], st => some st
  | j :: rest, st =>
    match decodeStepA o ms_s st j with
    | none => none
    | some st' => decodeLoopA o ms_s rest st'

def decodeA (pb : PbInstance) (os ms : List ℕ) : Option (List (List PlacementA)) :=
  let ms_s := split_ms pb ms
  (decodeLoopA pb.jobs ms_s os
    ⟨List.replicate pb.machinesNb [], List.replicate ms_s.length 0,
      List.replicate ms_s.length 0⟩).map (·.machineOps)

/-- Invariant carried through the decode loop. -/
structure DecInv (J M : ℕ) (st : DecodeStateA) : Prop where
  idxLen : st.indexes.length = J
  cstrLen : st.startTaskCstr.length = J
  mopsLen : st.machineOps.length = M
  pairwiseDisj : ∀ l ∈ st.machineOps,
    l.Pairwise fun p q : PlacementA =>
      p.start + p.duration ≤ q.start ∨ q.start + q.duration ≤ p.start
  startGe : ∀ l ∈ st.machineOps, ∀ p ∈ l, p.startCstr ≤ p.start
  durPos : ∀ l ∈ st.machineOps, ∀ p ∈ l, 1 ≤ p.duration
  jobLt : ∀ l ∈ st.machineOps, ∀ p ∈ l, p.job < J
  opIdxLt : ∀ l ∈ st.machineOps, ∀ p ∈ l, p.opIdx < st.indexes.getD p.job 0
  uniq : ∀ l1 ∈ st.machineOps, ∀ l2 ∈ st.machineOps, ∀ p ∈ l1, ∀ q ∈ l2,
    p.job = q.job → p.opIdx = q.opIdx → p = q
  cstrLink : ∀ j < J, ∀ k, st.indexes.getD j 0 = k + 1 →
    ∃ l ∈ st.machineOps, ∃ p ∈ l, p.job = j ∧ p.opIdx = k ∧
      st.startTaskCstr.getD j 0 = p.start + p.duration
  prec : ∀ l1 ∈ st.machineOps, ∀ l2 ∈ st.machineOps, ∀ p ∈ l1, ∀ q ∈ l2,
    q.job = p.job → q.opIdx = p.opIdx + 1 → q.startCstr = p.start + p.duration

/-! ## Concrete fixtures used by counterexamples and witnesses -/

/-- 2 machines; job 1 = op on machine 2 (3 t.u.) then op on machine 1 (5 t.u.);
  job 2 = one op on machine 1 (2 t.u.). -/
def pbGap : PbInstance := ⟨2, [[[⟨2, 3⟩], [⟨1, 5⟩]], [[⟨1, 2⟩]]]⟩

/-- The same instance again, as an independent fixture. -/
def pbGapW : PbInstance := ⟨2, [[[⟨2, 3⟩], [⟨1, 5⟩]], [[⟨1, 2⟩]]]⟩

/-- 1 machine, 1 job, 1 operation of processing time 0 — a valid instance of
  the spec §3 data model (`processing_time ≥ 0`). -/
def pbZero : PbInstance := ⟨1, [[[⟨1, 0⟩]]]⟩

/-- 2 jobs of one operation each, both with 2 machine options. -/
def jobsTwoOpt : List (List (List MachineOption)) :=
  [[[⟨1, 1⟩, ⟨2, 1⟩]], [[⟨1, 1⟩, ⟨2, 1⟩]]]

/-- 2 jobs of one operation each, single option. -/
def jobsPair : List (List (List MachineOption)) :=
  [[[⟨1, 1⟩]], [[⟨1, 1⟩]]]

/-- Q-table fixture for the phase-switch counterexample. -/
def qFix : List (List ℚ) := [[0, 0], [0, 1]]

/-! ## Helper lemmas -/

theorem getD_set_self (l : List ℕ) (i v : ℕ) (h : i < l.length) :
    (l.set i v).getD i 0 = v := by
  rw [List.getD_eq_getElem _ _ (by simpa using h)]
  exact List.getElem_set_self _

theorem getD_set_ne (l : List ℕ) {i j : ℕ} (v : ℕ) (h : i ≠ j) :
    (l.set i v).getD j 0 = l.getD j 0 := by
  by_cases hj : j < l.length
  · rw [List.getD_eq_getElem _ _ (by simpa using hj), List.getD_eq_getElem _ _ hj]
    exact List.getElem_set_ne h _
  · rw [List.getD_eq_default _ _ (by simpa using not_lt.1 hj),
      List.getD_eq_default _ _ (not_lt.1 hj)]

theorem getD_replicate_zero (n i : ℕ) (h : i < n) :
    (List.replicate n (0 : ℕ)).getD i 0 = 0 := by
  rw [List.getD_eq_getElem _ _ (by simpa using h)]
  exact List.getElem_replicate _ _

/-! ## C5: the per-generation reward -/

/-- C5 counterexample: at `best_time = 0` the reward expression of main.py
  line 201 raises `ZeroDivisionError` (modelled `none`) instead of yielding
  the reward 0 the claim promises. -/
theorem C5_counterexample :
    generationReward 0 0 = none ∧ generationReward 0 0 ≠ some 0 := by
  constructor
  · rfl
  · intro h
    simp [generationReward] at h

/-- C5 (amended): whenever the best makespan `b` before the operators is
  nonzero, the recorded reward is exactly `(b - b') / b`; it is positive
  exactly on improvement, zero exactly on stagnation, negative exactly on
  regression.  For `b = 0` the computation fails (see the counterexample)
  rather than returning 0. -/
theorem C5_reward (b b' : ℕ) (hb : b ≠ 0) :
    ∃ r, generationReward b b' = some r ∧ r = ((b : ℚ) - (b' : ℚ)) / (b : ℚ) ∧
      (0 < r ↔ b' < b) ∧ (r = 0 ↔ b' = b) ∧ (r < 0 ↔ b < b') := by
  have hbq : (0 : ℚ) < (b : ℚ) := by exact_mod_cast Nat.pos_of_ne_zero hb
  refine ⟨((b : ℚ) - (b' : ℚ)) / (b : ℚ), by simp [generationReward, hb], rfl, ?_, ?_, ?_⟩
  · rw [lt_div_iff₀ hbq, zero_mul, sub_pos]
    exact_mod_cast Iff.rfl
  · rw [div_eq_zero_iff]
    constructor
    · intro h
      rcases h with h | h
      · have := sub_eq_zero.1 h
        exact_mod_cast this.symm
      · exact absurd h (ne_of_gt hbq)
    · intro h
      left
      rw [h]
      ring
  · rw [div_lt_iff₀ hbq, zero_mul, sub_neg]
    exact_mod_cast Iff.rfl

/-- C5 witness: the amended statement evaluated at `b = 2`, `b' = 1`. -/
theorem C5_reward_witness :
    ∃ r, generationReward 2 1 = some r ∧ r = ((2 : ℚ) - (1 : ℚ)) / (2 : ℚ) ∧
      (0 < r ↔ 1 < 2) ∧ (r = 0 ↔ 1 = 2) ∧ (r < 0 ↔ 2 < 1) :=
  C5_reward 2 1 (by decide)

/-! ## C6: SARSA / Q-learning phase switch -/

theorem useSarsaAfter_eq (n g : ℕ) : useSarsaAfter n g = decide (g ≤ n * 10) := by
  induction g with
  | zero => simp [useSarsaAfter]
  | succ g ih =>
    simp only [useSarsaAfter, ih]
    by_cases h : g + 1 > n * 10
    · rw [if_pos h]
      simp
      omega
    · rw [if_neg h]
      simp only [decide_eq_decide]
      omega

/-- C6 counterexample: with population size `N = 1`, generation `g = 11`
  satisfies `g > 10·N`, yet the update the code performs is still the SARSA
  update (the `use_sarsa` flag only flips at the end of the body of
  generation `10·N + 1`), and it differs from the Q-learning update the
  claim prescribes for this generation. -/
theorem C6_counterexample :
    10 * 1 < 11 ∧
    qUpdateAt 1 11 qFix 0 0 0 1 0 (1 / 10) (9 / 10) =
      update_Q_sarsa qFix 0 0 0 1 0 (1 / 10) (9 / 10) ∧
    qUpdateAt 1 11 qFix 0 0 0 1 0 (1 / 10) (9 / 10) ≠
      update_Q_qlearning qFix 0 0 0 1 (1 / 10) (9 / 10) := by
  refine ⟨by norm_num, ?_, ?_⟩
  · unfold qUpdateAt genUpdateIsSarsa
    rw [useSarsaAfter_eq]
    norm_num
  · unfold qUpdateAt genUpdateIsSarsa
    rw [useSarsaAfter_eq]
    norm_num
    simp only [update_Q_sarsa, update_Q_qlearning, qFix, pymaxQ, List.getD, List.set,
      List.get?, Option.getD, List.foldl]
    norm_num

/-- C6 (amended): the update performed in generation `g ≥ 1` is the SARSA
  rule iff `g ≤ 10·N + 1` and the Q-learning rule otherwise, so the first
  generation whose update differs is `g = 10·N + 2` (not `10·N + 1`). -/
theorem C6_phase_switch (n g : ℕ) (hg : 1 ≤ g) (Q : List (List ℚ)) (s a : ℕ)
    (r : ℚ) (s' a' : ℕ) (al ga : ℚ) :
    qUpdateAt n g Q s a r s' a' al ga =
      (if g ≤ n * 10 + 1 then update_Q_sarsa Q s a r s' a' al ga
       else update_Q_qlearning Q s a r s' al ga) := by
  unfold qUpdateAt genUpdateIsSarsa
  rw [useSarsaAfter_eq]
  by_cases h : g ≤ n * 10 + 1
  · rw [if_pos (by simp only [decide_eq_true_eq]; omega), if_pos h]
  · rw [if_neg (by simp only [decide_eq_true_eq]; omega), if_neg h]

/-- C6 witness: the amended statement evaluated at `N = 1`, `g = 5`. -/
theorem C6_phase_switch_witness :
    qUpdateAt 1 5 qFix 0 0 0 1 0 (1 / 10) (9 / 10) =
      (if 5 ≤ 1 * 10 + 1 then update_Q_sarsa qFix 0 0 0 1 0 (1 / 10) (9 / 10)
       else update_Q_qlearning qFix 0 0 0 1 (1 / 10) (9 / 10)) :=
  C6_phase_switch 1 5 (by decide) qFix 0 0 0 1 0 (1 / 10) (9 / 10)

/-! ## C3: halfMutation writes into its argument -/

/-- C3: the contract says operators return new sequences and never modify the
  parents, but `halfMutation` binds `o = p` (an alias, not a copy) and then
  assigns `o[i] = random.randint(...)` in place.  On the MS `[0, 0]` of a
  2-operation instance with 2 options per operation, with sampled position 0
  and drawn value 1, the caller's list ends up as `[1, 0]` — the parent MS is
  modified. -/
theorem C3_halfMutation_writes_argument :
    halfMutationArgAfter [0, 0] jobsTwoOpt [0] (fun _ => 1) = [1, 0] ∧
    halfMutationArgAfter [0, 0] jobsTwoOpt [0] (fun _ => 1) ≠ [0, 0] := by
  have h1 : halfMutationArgAfter [0, 0] jobsTwoOpt [0] (fun _ => 1) = [1, 0] := rfl
  refine ⟨h1, ?_⟩
  rw [h1]
  decide

/-! ## C7: neighborhoodMutation's position sampling never terminates on
  degenerate OS inputs -/

theorem getD_pair_zero (i : ℕ) : ([0, 0] : List ℤ).getD i 0 = 0 := by
  match i with
  | 0 => rfl
  | 1 => rfl
  | n + 2 => rfl

theorem loopPos2_const_none (pos1 : ℕ) (draws : ℕ → ℕ) :
    ∀ fuel pos2 t, loopPos2 [0, 0] pos1 draws fuel pos2 t = none := by
  intro fuel
  induction fuel with
  | zero => intro pos2 t; rfl
  | succ fuel ih =>
    intro pos2 t
    simp only [loopPos2, getD_pair_zero, if_pos rfl]
    exact ih (draws t) (t + 1)

/-- C7: contrary to the claim there is no retry budget and no fallback: on an
  OS holding fewer than two distinct values (here `[0, 0]`, an OS of a single
  job with two operations) the `while p[pos2] == p[pos1]` loop of
  `neighborhoodMutation` never exits — for every retry bound `fuel` and every
  sequence of position draws the embedded loop returns `none`, and the
  neighborhood branch of `mutationOS` (which the 50/50 coin selects
  unconditionally, with no fallback to `swappingMutation`) diverges with it. -/
theorem C7_neighborhood_diverges (fuel pos1 permChoice : ℕ) (draws : ℕ → ℕ) :
    neighborhoodMutation [0, 0] pos1 draws permChoice fuel = none ∧
    mutationOS false [0, 0] 0 0 pos1 draws permChoice fuel = none := by
  have h : neighborhoodMutation [0, 0] pos1 draws permChoice fuel = none := by
    simp [neighborhoodMutation, loopPos2_const_none]
  exact ⟨h, by simpa [mutationOS] using h⟩

/-! ## C4: totality of find_first_available_place -/

/-- C4 counterexample: with `start_ctr = 0`, `duration = 0` (a non-negative
  processing time, allowed by the data model) and an empty machine, the scan
  range of `find_first_available_place` is empty and the function returns
  `None` — the no-result branch is reachable. -/
theorem C4_counterexample : find_first_available_place 0 0 [] = none := rfl

theorem getD_set_eq {α : Type} (l : List α) (i : ℕ) (v d : α) (h : i < l.length) :
    (l.set i v).getD i d = v := by
  rw [List.getD_eq_getElem _ _ (by simpa using h)]
  exact List.getElem_set_self _

theorem getD_set_ne' {α : Type} (l : List α) {i j : ℕ} (v d : α) (h : i ≠ j) :
    (l.set i v).getD j d = l.getD j d := by
  by_cases hj : j < l.length
  · rw [List.getD_eq_getElem _ _ (by simpa using hj), List.getD_eq_getElem _ _ hj]
    exact List.getElem_set_ne h _
  · rw [List.getD_eq_default _ _ (by simpa using not_lt.1 hj),
      List.getD_eq_default _ _ (not_lt.1 hj)]

theorem markInterval_cons (tab : List Bool) (s l : ℕ) :
    markInterval tab s (l + 1) = markInterval (tab.set s false) (s + 1) l := by
  simp [markInterval, List.range'_succ]

theorem getD_set_false (tab : List Bool) (s i : ℕ) :
    (tab.set s false).getD i false = (tab.getD i false && !(decide (i = s))) := by
  by_cases h : i = s
  · subst h
    by_cases hs : i < tab.length
    · rw [getD_set_eq _ _ _ _ hs]
      simp
    · rw [List.getD_eq_default _ _ (by simpa using not_lt.1 hs),
        List.getD_eq_default _ _ (not_lt.1 hs)]
      simp
  · rw [getD_set_ne' _ _ _ (fun hh => h hh.symm)]
    simp [h]

theorem markInterval_getD (l : ℕ) : ∀ (s : ℕ) (tab : List Bool) (i : ℕ),
    (markInterval tab s l).getD i false =
      (tab.getD i false && !(decide (s ≤ i ∧ i < s + l))) := by
  induction l with
  | zero =>
    intro s tab i
    have h : decide (s ≤ i ∧ i < s + 0) = false := by
      rw [decide_eq_false_iff_not]
      omega
    simp [markInterval, h]
    intro _
    omega
  | succ l ih =>
    intro s tab i
    rw [markInterval_cons, ih, getD_set_false]
    cases hb : tab.getD i false
    · simp
    · simp only [Bool.true_and, ← decide_not, ← Bool.decide_and, decide_eq_decide]
      omega

theorem markUsed_getD : ∀ (mj : List Placement) (tab : List Bool) (i : ℕ),
    (markUsed mj tab).getD i false = (tab.getD i false && !(covers mj i)) := by
  intro mj
  induction mj with
  | nil => intro tab i; simp [markUsed, covers]
  | cons p mj ih =>
    intro tab i
    have h1 : markUsed (p :: mj) tab = markUsed mj (markInterval tab p.start p.duration) := rfl
    rw [h1, ih, markInterval_getD]
    simp [covers, List.any_cons, Bool.not_or, Bool.and_assoc]

theorem getD_replicate_true (L i : ℕ) :
    (List.replicate L true).getD i false = decide (i < L) := by
  by_cases h : i < L
  · rw [List.getD_eq_getElem _ _ (by simpa using h)]
    simp [List.getElem_replicate, h]
  · rw [List.getD_eq_default _ _ (by simpa using not_lt.1 h)]
    simp [h]

theorem is_free_iff (tab : List Bool) (k d : ℕ) :
    is_free tab k d = true ↔ ∀ i, k ≤ i → i < k + d → tab.getD i false = true := by
  simp only [is_free, List.all_eq_true, List.mem_range'_1]
  constructor
  · intro h i h1 h2
    exact h i ⟨h1, h2⟩
  · intro h i hi
    exact h i hi.1 hi.2

theorem maxEnds_ge (mj : List Placement) : ∀ p ∈ mj, p.start + p.duration ≤ maxEnds mj := by
  induction mj with
  | nil => intro p hp; cases hp
  | cons q mj ih =>
    intro p hp
    rcases List.mem_cons.1 hp with h | h
    · subst h
      exact le_max_right _ _
    · exact (ih p h).trans (le_max_left _ _)

theorem ffap_eq (ctr dur : ℕ) (mj : List Placement) :
    find_first_available_place ctr dur mj =
      (List.range' ctr ((maxEnds mj).max ctr + dur - ctr)).find? fun k =>
        is_free (markUsed mj (List.replicate ((maxEnds mj).max ctr + dur) true)) k dur := by
  cases mj with
  | nil => simp [find_first_available_place, maxEnds]
  | cons p mj => simp [find_first_available_place]

theorem find?_range'_spec (P : ℕ → Bool) : ∀ (n a s : ℕ),
    (List.range' a n).find? P = some s →
    P s = true ∧ a ≤ s ∧ s < a + n ∧ ∀ t, a ≤ t → t < s → P t = false := by
  intro n
  induction n with
  | zero => intro a s h; simp at h
  | succ n ih =>
    intro a s h
    rw [List.range'_succ] at h
    by_cases hPa : P a = true
    · rw [List.find?_cons_of_pos _ hPa] at h
      obtain rfl : a = s := by simpa using h
      exact ⟨hPa, le_refl _, by omega, fun t h1 h2 => absurd (h1.trans_lt h2) (lt_irrefl a)⟩
    · rw [List.find?_cons_of_neg _ hPa] at h
      obtain ⟨hs, h1, h2, h3⟩ := ih (a + 1) s h
      refine ⟨hs, by omega, by omega, fun t ht1 ht2 => ?_⟩
      by_cases hta : t = a
      · subst hta
        exact Bool.eq_false_iff.2 hPa
      · exact h3 t (by omega) ht2

theorem ffap_core (ctr dur : ℕ) (mj : List Placement) (hd : 1 ≤ dur) :
    ∃ s, find_first_available_place ctr dur mj = some s ∧ ctr ≤ s ∧
      s ≤ (maxEnds mj).max ctr ∧
      (∀ i, s ≤ i → i < s + dur → covers mj i = false) ∧
      (∀ t, ctr ≤ t → t < s → ∃ i, t ≤ i ∧ i < t + dur ∧ covers mj i = true) := by
  set k0 := (maxEnds mj).max ctr with hk0
  set L := k0 + dur with hL
  set tab := markUsed mj (List.replicate L true) with htab
  have tabChar : ∀ i, tab.getD i false = (decide (i < L) && !(covers mj i)) := by
    intro i
    rw [htab, markUsed_getD, getD_replicate_true]
  have hcov0 : ∀ i, k0 ≤ i → covers mj i = false := by
    intro i hi
    rw [covers]
    rw [List.any_eq_false]
    intro p hp
    have := maxEnds_ge mj p hp
    have hk : p.start + p.duration ≤ k0 := this.trans (le_max_left _ _)
    simp only [decide_eq_true_eq]
    omega
  have hP0 : is_free tab k0 dur = true := by
    rw [is_free_iff]
    intro i h1 h2
    rw [tabChar, hcov0 i h1]
    simp
    omega
  have hmem : k0 ∈ List.range' ctr (L - ctr) := by
    rw [List.mem_range'_1]
    constructor
    · exact le_max_right _ _
    · have h1 : ctr ≤ k0 := le_max_right _ _
      omega
  have hsome : ((List.range' ctr (L - ctr)).find? fun k => is_free tab k dur).isSome := by
    rw [List.find?_isSome]
    exact ⟨k0, hmem, hP0⟩
  obtain ⟨s, hs⟩ := Option.isSome_iff_exists.1 hsome
  have hff : find_first_available_place ctr dur mj = some s := by
    rw [ffap_eq]
    exact hs
  obtain ⟨hPs, hcs, hsl, hmin⟩ := find?_range'_spec _ _ _ _ hs
  have hsk0 : s ≤ k0 := by
    by_contra hlt
    have := hmin k0 (le_max_right _ _) (by omega)
    rw [hP0] at this
    cases this
  refine ⟨s, hff, hcs, hsk0, ?_, ?_⟩
  · intro i h1 h2
    have := (is_free_iff _ _ _).1 hPs i h1 ?_
    · rw [tabChar, Bool.and_eq_true] at this
      simpa using this.2
    · omega
  · intro t h1 h2
    have hPt := hmin t h1 h2
    have : ¬ (∀ i, t ≤ i → i < t + dur → tab.getD i false = true) := by
      intro hall
      rw [(is_free_iff _ _ _).2 hall] at hPt
      cases hPt
    push_neg at this
    obtain ⟨i, hi1, hi2, hi3⟩ := this
    refine ⟨i, hi1, hi2, ?_⟩
    rw [tabChar] at hi3
    have hiL : i < L := by omega
    cases hc : covers mj i
    · exfalso
      rw [hc] at hi3
      simp [hiL] at hi3
    · rfl

/-- C4 (amended): for every `start_ctr`, every positive `duration` and every
  list of placed operations, `find_first_available_place` returns a start
  time — the open tail after the last placed interval always accommodates a
  positive-duration operation.  (For `duration = 0` the no-result branch is
  reachable; see the counterexample.) -/
theorem C4_total (start_ctr duration : ℕ) (machine_jobs : List Placement)
    (hd : 1 ≤ duration) :
    (find_first_available_place start_ctr duration machine_jobs).isSome := by
  obtain ⟨s, hs, -⟩ := ffap_core start_ctr duration machine_jobs hd
  rw [hs]
  rfl

/-- C4 witness: the amended totality at `start_ctr = 0`, `duration = 1`,
  empty machine. -/
theorem C4_total_witness : (find_first_available_place 0 1 []).isSome :=
  C4_total 0 1 [] (by decide)

/-! ## C8: order of the per-machine schedules and of the export -/

/-- C8 counterexample: on the gap instance (job 1: machine 2 for 3 then
  machine 1 for 5; job 2: machine 1 for 2) with OS `[0,0,1]`, gap insertion
  places job 2's operation at time 0 on machine 1 *after* appending job 1's
  operation starting at time 3, so the machine-1 list — and the exported
  sequence — is `[(3,8,·), (0,2,·)]`, not ordered by start time. -/
theorem C8_counterexample :
    (decode pbGap [0, 0, 1] [0, 0, 0]).map translate_decoded_to_gantt =
      some [("Machine-1", [(3, 8, "OP_1-2"), (0, 2, "OP_2-1")]),
            ("Machine-2", [(0, 3, "OP_1-1")])] ∧
    ¬ List.Chain' (fun a b : ℕ × ℕ × String => a.1 ≤ b.1)
        [(3, 8, "OP_1-2"), (0, 2, "OP_2-1")] := by
  constructor
  · rfl
  · intro h
    rw [List.chain'_cons] at h
    omega

/-- C8 (amended): the per-machine lists are kept in placement (append) order,
  not start-sorted order, and `translate_decoded_to_gantt` exports each
  machine's `(start, end, label)` triples preserving exactly that order, with
  `end = start + duration` and key `"Machine-{m+1}"`. -/
theorem C8_export_order (machine_operations : List (List Placement)) :
    (translate_decoded_to_gantt machine_operations).length =
      machine_operations.length ∧
    ∀ m, m < machine_operations.length →
      (translate_decoded_to_gantt machine_operations).getD m ("", []) =
        ("Machine-" ++ toString (m + 1),
          (machine_operations.getD m []).map fun op =>
            (op.start, op.start + op.duration, op.name)) := by
  constructor
  · simp [translate_decoded_to_gantt]
  · intro m hm
    have hm2 : m < (translate_decoded_to_gantt machine_operations).length := by
      simpa [translate_decoded_to_gantt] using hm
    rw [List.getD_eq_getElem _ _ hm2, List.getD_eq_getElem _ _ hm]
    simp [translate_decoded_to_gantt, List.getElem_enum]

/-- C8 witness: the amended export-order statement evaluated on the decoded
  gap instance (whose machine-1 list is `[(·,start 3), (·,start 0)]`),
  at machine index 0. -/
theorem C8_export_order_witness :
    (translate_decoded_to_gantt ((decode pbGap [0, 0, 1] [0, 0, 0]).getD [])).length =
      ((decode pbGap [0, 0, 1] [0, 0, 0]).getD []).length ∧
    ∀ m, m < ((decode pbGap [0, 0, 1] [0, 0, 0]).getD []).length →
      (translate_decoded_to_gantt ((decode pbGap [0, 0, 1] [0, 0, 0]).getD [])).getD m ("", []) =
        ("Machine-" ++ toString (m + 1),
          (((decode pbGap [0, 0, 1] [0, 0, 0]).getD []).getD m []).map fun op =>
            (op.start, op.start + op.duration, op.name)) :=
  C8_export_order ((decode pbGap [0, 0, 1] [0, 0, 0]).getD [])

/-! ## C2: counting lemmas for the OS crossovers -/

theorem keepPhase_fst_length (S : List ℤ) (p : List ℤ) :
    ((keepPhase S p).1).length = p.length := by
  induction p with
  | nil => rfl
  | cons e p ih =>
    by_cases h : e ∈ S <;> simp [keepPhase, h, ih]

theorem keepPhase_fst_count (S : List ℤ) (p : List ℤ) (j : ℤ) (hj : j ≠ -1) :
    ((keepPhase S p).1).count j = if j ∈ S then p.count j else 0 := by
  induction p with
  | nil => simp [keepPhase]
  | cons e p ih =>
    by_cases h : e ∈ S
    · by_cases hje : e = j
      · subst hje
        simp [keepPhase, h, List.count_cons, ih]
      · simp [keepPhase, h, List.count_cons, hje, ih]
    · have hne : (-1 : ℤ) ≠ j := fun hh => hj hh.symm
      by_cases hje : e = j
      · subst hje
        simp [keepPhase, h, List.count_cons, hne, ih]
      · simp [keepPhase, h, List.count_cons, hne, hje, ih]

theorem keepPhase_fst_sentinel (S : List ℤ) (p : List ℤ) (hp : ∀ e ∈ p, e ≠ -1) :
    ((keepPhase S p).1).count (-1) = ((keepPhase S p).2).length := by
  induction p with
  | nil => rfl
  | cons e p ih =>
    have he : e ≠ -1 := hp e (List.mem_cons_self e p)
    have ihh := ih fun x hx => hp x (List.mem_cons_of_mem e hx)
    by_cases h : e ∈ S
    · simp [keepPhase, h, List.count_cons, he, ihh]
    · simp [keepPhase, h, List.count_cons, he, ihh]

theorem keepPhase_snd_count (S : List ℤ) (p : List ℤ) (j : ℤ) :
    ((keepPhase S p).2).count j = if j ∈ S then 0 else p.count j := by
  induction p with
  | nil => simp [keepPhase]
  | cons e p ih =>
    by_cases h : e ∈ S
    · by_cases hjS : j ∈ S
      · simp [keepPhase, h, hjS, ih]
      · have hje : e ≠ j := fun hh => hjS (hh ▸ h)
        simp [keepPhase, h, hjS, List.count_cons, hje, ih]
    · by_cases hje : e = j
      · subst hje
        simp [keepPhase, h, List.count_cons, ih]
      · simp [keepPhase, h, List.count_cons, hje, ih]

theorem keepPhase_fst_mem (S : List ℤ) (p : List ℤ) :
    ∀ e ∈ (keepPhase S p).1, e = -1 ∨ e ∈ p := by
  induction p with
  | nil => intro e he; cases he
  | cons x p ih =>
    intro e he
    by_cases h : x ∈ S
    · simp only [keepPhase, h, if_pos] at he
      rcases List.mem_cons.1 he with rfl | he
      · exact Or.inr (List.mem_cons_self _ _)
      · rcases ih e he with h1 | h1
        · exact Or.inl h1
        · exact Or.inr (List.mem_cons_of_mem _ h1)
    · simp only [keepPhase, h, if_neg, not_false_iff] at he
      rcases List.mem_cons.1 he with rfl | he
      · exact Or.inl rfl
      · rcases ih e he with h1 | h1
        · exact Or.inl h1
        · exact Or.inr (List.mem_cons_of_mem _ h1)

theorem keepPhase_snd_mem (S : List ℤ) (p : List ℤ) :
    ∀ e ∈ (keepPhase S p).2, e ∈ p := by
  induction p with
  | nil => intro e he; cases he
  | cons x p ih =>
    intro e he
    by_cases h : x ∈ S
    · simp only [keepPhase, h, if_pos] at he
      exact List.mem_cons_of_mem _ (ih e he)
    · simp only [keepPhase, h, if_neg, not_false_iff] at he
      rcases List.mem_cons.1 he with rfl | he
      · exact List.mem_cons_self _ _
      · exact List.mem_cons_of_mem _ (ih e he)

theorem jbxKeep_fst_length (S : List ℤ) (p : List ℤ) :
    ((jbxKeep S p).1).length = p.length := by
  induction p with
  | nil => rfl
  | cons e p ih =>
    by_cases h : e ∈ S <;> simp [jbxKeep, h, ih]

theorem jbxKeep_fst_count (S : List ℤ) (p : List ℤ) (j : ℤ) (hj : j ≠ -1) :
    ((jbxKeep S p).1).count j = if j ∈ S then p.count j else 0 := by
  induction p with
  | nil => simp [jbxKeep]
  | cons e p ih =>
    by_cases h : e ∈ S
    · by_cases hje : e = j
      · subst hje
        simp [jbxKeep, h, List.count_cons, ih]
      · simp [jbxKeep, h, List.count_cons, hje, ih]
    · have hne : (-1 : ℤ) ≠ j := fun hh => hj hh.symm
      by_cases hje : e = j
      · subst hje
        simp [jbxKeep, h, List.count_cons, hne, ih]
      · simp [jbxKeep, h, List.count_cons, hne, hje, ih]

theorem jbxKeep_fst_sentinel (S : List ℤ) (p : List ℤ) (hp : ∀ e ∈ p, e ≠ -1) :
    ((jbxKeep S p).1).count (-1) + ((jbxKeep S p).2).length = p.length := by
  induction p with
  | nil => rfl
  | cons e p ih =>
    have he : e ≠ -1 := hp e (List.mem_cons_self e p)
    have ihh := ih fun x hx => hp x (List.mem_cons_of_mem e hx)
    by_cases h : e ∈ S
    · simp [jbxKeep, h, List.count_cons, he]
      omega
    · simp [jbxKeep, h, List.count_cons, he]
      omega

theorem jbxKeep_snd_count (S : List ℤ) (p : List ℤ) (j : ℤ) :
    ((jbxKeep S p).2).count j = if j ∈ S then p.count j else 0 := by
  induction p with
  | nil => simp [jbxKeep]
  | cons e p ih =>
    by_cases h : e ∈ S
    · by_cases hje : e = j
      · subst hje
        simp [jbxKeep, h, List.count_cons, ih]
      · simp [jbxKeep, h, List.count_cons, hje, ih]
    · by_cases hje : e = j
      · subst hje
        simp [jbxKeep, h, List.count_cons, ih]
      · simp [jbxKeep, h, List.count_cons, hje, ih]

theorem jbxKeep_fst_mem (S : List ℤ) (p : List ℤ) :
    ∀ e ∈ (jbxKeep S p).1, e = -1 ∨ e ∈ p := by
  induction p with
  | nil => intro e he; cases he
  | cons x p ih =>
    intro e he
    by_cases h : x ∈ S
    · simp only [jbxKeep, h, if_pos] at he
      rcases List.mem_cons.1 he with rfl | he
      · exact Or.inr (List.mem_cons_self _ _)
      · rcases ih e he with h1 | h1
        · exact Or.inl h1
        · exact Or.inr (List.mem_cons_of_mem _ h1)
    · simp only [jbxKeep, h, if_neg, not_false_iff] at he
      rcases List.mem_cons.1 he with rfl | he
      · exact Or.inl rfl
      · rcases ih e he with h1 | h1
        · exact Or.inl h1
        · exact Or.inr (List.mem_cons_of_mem _ h1)

theorem jbxKeep_snd_mem (S : List ℤ) (p : List ℤ) :
    ∀ e ∈ (jbxKeep S p).2, e ∈ p := by
  induction p with
  | nil => intro e he; cases he
  | cons x p ih =>
    intro e he
    by_cases h : x ∈ S
    · simp only [jbxKeep, h, if_pos] at he
      rcases List.mem_cons.1 he with rfl | he
      · exact List.mem_cons_self _ _
      · exact List.mem_cons_of_mem _ (ih e he)
    · simp only [jbxKeep, h, if_neg, not_false_iff] at he
      exact List.mem_cons_of_mem _ (ih e he)

theorem fillFrom_spec (o : List ℤ) : ∀ q : List ℤ, o.count (-1) = q.length →
    ∃ r, fillFrom o q = some r ∧ r.length = o.length ∧
      (∀ j : ℤ, j ≠ -1 → r.count j = o.count j + q.count j) ∧
      (∀ e ∈ r, (e ∈ o ∧ e ≠ -1) ∨ e ∈ q) := by
  induction o with
  | nil =>
    intro q hq
    have : q = [] := List.eq_nil_of_length_eq_zero (by simpa using hq.symm)
    subst this
    exact ⟨[], rfl, rfl, fun j _ => by simp, fun e he => absurd he (List.not_mem_nil e)⟩
  | cons x xs ih =>
    intro q hq
    by_cases hx : x = -1
    · subst hx
      rw [List.count_cons] at hq
      simp only [beq_self_eq_true, if_true] at hq
      cases q with
      | nil => simp at hq
      | cons y q' =>
        have hq' : xs.count (-1) = q'.length := by
          simp only [List.length_cons] at hq
          omega
        obtain ⟨r', hr1, hr2, hr3, hr4⟩ := ih q' hq'
        refine ⟨y :: r', ?_, by simp [hr2], ?_, ?_⟩
        · simp [fillFrom, hr1]
        · intro j hj
          rw [List.count_cons, List.count_cons, List.count_cons, hr3 j hj]
          have : ¬ ((-1 : ℤ) == j) = true := by
            simp only [beq_iff_eq]
            exact fun hh => hj hh.symm
          simp only [this, if_false]
          by_cases hyj : y = j <;> simp [hyj] <;> omega
        · intro e he
          rcases List.mem_cons.1 he with rfl | he
          · exact Or.inr (List.mem_cons_self _ _)
          · rcases hr4 e he with ⟨h1, h2⟩ | h1
            · exact Or.inl ⟨List.mem_cons_of_mem _ h1, h2⟩
            · exact Or.inr (List.mem_cons_of_mem _ h1)
    · have hq2 : xs.count (-1) = q.length := by
        rw [List.count_cons] at hq
        simpa [hx] using hq
      obtain ⟨r', hr1, hr2, hr3, hr4⟩ := ih q hq2
      refine ⟨x :: r', ?_, by simp [hr2], ?_, ?_⟩
      · simp only [fillFrom, if_neg hx, hr1, Option.map_some']
      · intro j hj
        rw [List.count_cons, List.count_cons, hr3 j hj]
        by_cases hxj : x = j <;> simp [hxj] <;> omega
      · intro e he
        rcases List.mem_cons.1 he with rfl | he
        · exact Or.inl ⟨List.mem_cons_self _ _, hx⟩
        · rcases hr4 e he with ⟨h1, h2⟩ | h1
          · exact Or.inl ⟨List.mem_cons_of_mem _ h1, h2⟩
          · exact Or.inr h1

theorem length_eq_sum_counts (J : ℕ) (l : List ℤ)
    (h : ∀ e ∈ l, ∃ j, j < J ∧ e = (j : ℤ)) :
    l.length = ∑ j ∈ Finset.range J, l.count (j : ℤ) := by
  induction l with
  | nil => simp
  | cons e l ih =>
    obtain ⟨j0, hj0, rfl⟩ := h e (List.mem_cons_self _ _)
    have ihh := ih fun x hx => h x (List.mem_cons_of_mem _ hx)
    have hsum : ∀ j ∈ Finset.range J,
        (((j0 : ℤ) :: l).count (j : ℤ)) = l.count (j : ℤ) + if j = j0 then 1 else 0 := by
      intro j _
      rw [List.count_cons]
      by_cases hj : j = j0
      · subst hj
        simp
      · have : ¬ (((j0 : ℤ)) == ((j : ℤ))) = true := by
          simp only [beq_iff_eq, Int.natCast_inj]
          exact fun hh => hj hh.symm
        simp [this, hj]
    rw [Finset.sum_congr rfl hsum, Finset.sum_add_distrib, Finset.sum_ite_eq',
      if_pos (Finset.mem_range.2 hj0)]
    simp only [List.length_cons, ihh]

theorem totalOps_eq_sum (jobs : List (List (List MachineOption))) :
    totalOps jobs = ∑ j ∈ Finset.range jobs.length, (jobs.getD j []).length := by
  induction jobs with
  | nil => simp [totalOps]
  | cons job rest ih =>
    have : ∀ j : ℕ, ((job :: rest).getD (j + 1) []) = rest.getD j [] := fun j => rfl
    rw [List.length_cons, Finset.sum_range_succ']
    simp only [this]
    rw [← ih]
    simp only [totalOps, List.map_cons, List.sum_cons, List.getD_cons_zero]
    omega

theorem osValidZ_ne_neg_one {jobs : List (List (List MachineOption))} {p : List ℤ}
    (h : osValidZ jobs p) : ∀ e ∈ p, e ≠ -1 := by
  intro e he
  have := (h.2.1 e he).1
  omega

theorem osValidZ_exists_nat {jobs : List (List (List MachineOption))} {p : List ℤ}
    (h : osValidZ jobs p) : ∀ e ∈ p, ∃ j, j < jobs.length ∧ e = (j : ℤ) := by
  intro e he
  obtain ⟨h0, h1⟩ := h.2.1 e he
  exact ⟨e.toNat, by omega, by omega⟩

theorem osValidZ_length_sum {jobs : List (List (List MachineOption))} {p : List ℤ}
    (h : osValidZ jobs p) :
    p.length = ∑ j ∈ Finset.range jobs.length, (jobs.getD j []).length := by
  rw [length_eq_sum_counts jobs.length p (osValidZ_exists_nat h)]
  exact Finset.sum_congr rfl fun j hj => h.2.2 j (Finset.mem_range.1 hj)

theorem keepPhase_snd_length_sum {jobs : List (List (List MachineOption))}
    {p : List ℤ} (S : List ℤ) (h : osValidZ jobs p) :
    ((keepPhase S p).2).length = ∑ j ∈ Finset.range jobs.length,
      (if (j : ℤ) ∈ S then 0 else (jobs.getD j []).length) := by
  rw [length_eq_sum_counts jobs.length _
    (fun e he => osValidZ_exists_nat h e (keepPhase_snd_mem S p e he))]
  refine Finset.sum_congr rfl fun j hj => ?_
  rw [keepPhase_snd_count]
  by_cases hjS : (j : ℤ) ∈ S
  · simp [hjS]
  · simp [hjS, h.2.2 j (Finset.mem_range.1 hj)]

/-- One half of POX: filling the marked copy of `pa` from the skipped
  elements of `pb` succeeds and yields a legal OS. -/
theorem pox_half (jobs : List (List (List MachineOption))) (S : List ℤ)
    (pa pb : List ℤ) (ha : osValidZ jobs pa) (hb : osValidZ jobs pb) :
    ∃ r, fillFrom (keepPhase S pa).1 (keepPhase S pb).2 = some r ∧
      r.length = pa.length ∧ osValidZ jobs r := by
  have hcnt : ((keepPhase S pa).1).count (-1) = ((keepPhase S pb).2).length := by
    rw [keepPhase_fst_sentinel S pa (osValidZ_ne_neg_one ha),
      keepPhase_snd_length_sum S ha, keepPhase_snd_length_sum S hb]
  obtain ⟨r, hr1, hr2, hr3, hr4⟩ := fillFrom_spec _ _ hcnt
  refine ⟨r, hr1, by rw [hr2, keepPhase_fst_length], ?_⟩
  have hlen : r.length = pa.length := by rw [hr2, keepPhase_fst_length]
  refine ⟨by rw [hlen, ha.1], ?_, ?_⟩
  · intro e he
    rcases hr4 e he with ⟨h1, h2⟩ | h1
    · rcases keepPhase_fst_mem S pa e h1 with h3 | h3
      · exact absurd h3 h2
      · exact ha.2.1 e h3
    · exact hb.2.1 e (keepPhase_snd_mem S pb e h1)
  · intro j hj
    have hjne : ((j : ℕ) : ℤ) ≠ -1 := by omega
    rw [hr3 _ hjne, keepPhase_fst_count _ _ _ hjne, keepPhase_snd_count]
    by_cases hjS : ((j : ℕ) : ℤ) ∈ S
    · simp [hjS, ha.2.2 j hj]
    · simp [hjS, hb.2.2 j hj]

theorem jbxKeep_snd_length_sum {jobs : List (List (List MachineOption))}
    {p : List ℤ} (S : List ℤ) (h : osValidZ jobs p) :
    ((jbxKeep S p).2).length = ∑ j ∈ Finset.range jobs.length,
      (if (j : ℤ) ∈ S then (jobs.getD j []).length else 0) := by
  rw [length_eq_sum_counts jobs.length _
    (fun e he => osValidZ_exists_nat h e (jbxKeep_snd_mem S p e he))]
  refine Finset.sum_congr rfl fun j hj => ?_
  rw [jbxKeep_snd_count]
  by_cases hjS : (j : ℤ) ∈ S
  · simp [hjS, h.2.2 j (Finset.mem_range.1 hj)]
  · simp [hjS]

/-- One half of JBX: filling the copy of `pa` marked by `Sa` from the
  elements of `pb` kept by the complementary set `Sb` succeeds and yields a
  legal OS. -/
theorem jbx_half (jobs : List (List (List MachineOption))) (Sa Sb : List ℤ)
    (pa pb : List ℤ) (ha : osValidZ jobs pa) (hb : osValidZ jobs pb)
    (hSb : ∀ j : ℕ, j < jobs.length → ((j : ℤ) ∈ Sb ↔ (j : ℤ) ∉ Sa)) :
    ∃ r, fillFrom (jbxKeep Sa pa).1 (jbxKeep Sb pb).2 = some r ∧
      r.length = pa.length ∧ osValidZ jobs r := by
  have hsplit : ∑ j ∈ Finset.range jobs.length, (jobs.getD j []).length =
      (∑ j ∈ Finset.range jobs.length,
        (if (j : ℤ) ∈ Sa then (jobs.getD j []).length else 0)) +
      (∑ j ∈ Finset.range jobs.length,
        (if (j : ℤ) ∈ Sa then 0 else (jobs.getD j []).length)) := by
    rw [← Finset.sum_add_distrib]
    refine Finset.sum_congr rfl fun j hj => ?_
    by_cases hjS : (j : ℤ) ∈ Sa <;> simp [hjS]
  have hSbSum : ((jbxKeep Sb pb).2).length = ∑ j ∈ Finset.range jobs.length,
      (if (j : ℤ) ∈ Sa then 0 else (jobs.getD j []).length) := by
    rw [jbxKeep_snd_length_sum Sb hb]
    refine Finset.sum_congr rfl fun j hj => ?_
    rcases hSb j (Finset.mem_range.1 hj) with hiff
    by_cases hjS : (j : ℤ) ∈ Sa
    · have hnb : (j : ℤ) ∉ Sb := fun hh => (hiff.1 hh) hjS
      simp [hjS, hnb]
    · simp [hjS, hiff.2 hjS]
  have hcnt : ((jbxKeep Sa pa).1).count (-1) = ((jbxKeep Sb pb).2).length := by
    have hsent := jbxKeep_fst_sentinel Sa pa (osValidZ_ne_neg_one ha)
    have hlenpa := osValidZ_length_sum ha
    have hkept := jbxKeep_snd_length_sum Sa ha
    rw [hSbSum]
    omega
  obtain ⟨r, hr1, hr2, hr3, hr4⟩ := fillFrom_spec _ _ hcnt
  refine ⟨r, hr1, by rw [hr2, jbxKeep_fst_length], ?_⟩
  have hlen : r.length = pa.length := by rw [hr2, jbxKeep_fst_length]
  refine ⟨by rw [hlen, ha.1], ?_, ?_⟩
  · intro e he
    rcases hr4 e he with ⟨h1, h2⟩ | h1
    · rcases jbxKeep_fst_mem Sa pa e h1 with h3 | h3
      · exact absurd h3 h2
      · exact ha.2.1 e h3
    · exact hb.2.1 e (jbxKeep_snd_mem Sb pb e h1)
  · intro j hj
    have hjne : ((j : ℕ) : ℤ) ≠ -1 := by omega
    rw [hr3 _ hjne, jbxKeep_fst_count _ _ _ hjne, jbxKeep_snd_count]
    rcases hSb j hj with hiff
    by_cases hjS : ((j : ℕ) : ℤ) ∈ Sa
    · have hnb : ((j : ℕ) : ℤ) ∉ Sb := fun hh => (hiff.1 hh) hjS
      simp [hjS, hnb, ha.2.2 j hj]
    · simp [hjS, hiff.2 hjS, hb.2.2 j hj]

/-- C2: both POX offspring and both JBX offspring of legal OS parents are
  legal: they have the parents' length and preserve the per-job multiplicity
  (job `j` occurs exactly `|jobs[j]|` times), for every possible sampled job
  set.  (For POX this holds although the source samples the set from the
  1-based `range(1, jobNumber+1)`: the invariant only needs the parents'
  per-job counts to agree.) -/
theorem C2_crossovers_preserve_multiplicity
    (jobs : List (List (List MachineOption))) (jobset1 : List ℤ) (p1 p2 : List ℤ)
    (h1 : osValidZ jobs p1) (h2 : osValidZ jobs p2) :
    (∃ o1 o2, precedenceOperationCrossover jobset1 p1 p2 = some (o1, o2) ∧
      o1.length = p1.length ∧ o2.length = p2.length ∧
      osValidZ jobs o1 ∧ osValidZ jobs o2) ∧
    (∃ o1 o2, jobBasedCrossover jobs.length jobset1 p1 p2 = some (o1, o2) ∧
      o1.length = p1.length ∧ o2.length = p2.length ∧
      osValidZ jobs o1 ∧ osValidZ jobs o2) := by
  constructor
  · obtain ⟨o1, ho1, hl1, hv1⟩ := pox_half jobs jobset1 p1 p2 h1 h2
    obtain ⟨o2, ho2, hl2, hv2⟩ := pox_half jobs jobset1 p2 p1 h2 h1
    refine ⟨o1, o2, ?_, hl1, hl2, hv1, hv2⟩
    simp [precedenceOperationCrossover, ho1, ho2]
  · have hmemJ2 : ∀ j : ℕ, j < jobs.length →
        ((j : ℤ) ∈ ((List.range jobs.length).map (fun i : ℕ => (i : ℤ))).filter
          (fun e => decide (e ∉ jobset1)) ↔ (j : ℤ) ∉ jobset1) := by
      intro j hj
      constructor
      · intro h
        rcases List.mem_filter.1 h with ⟨_, hdec⟩
        simpa using hdec
      · intro h
        refine List.mem_filter.2 ⟨?_, by simpa using h⟩
        exact List.mem_map.2 ⟨j, List.mem_range.2 hj, rfl⟩
    have hmemJ1 : ∀ j : ℕ, j < jobs.length →
        ((j : ℤ) ∈ jobset1 ↔
          (j : ℤ) ∉ ((List.range jobs.length).map (fun i : ℕ => (i : ℤ))).filter
            (fun e => decide (e ∉ jobset1))) := by
      intro j hj
      have := hmemJ2 j hj
      tauto
    obtain ⟨o1, ho1, hl1, hv1⟩ := jbx_half jobs jobset1
      (((List.range jobs.length).map (fun i : ℕ => (i : ℤ))).filter
        fun e => decide (e ∉ jobset1))
      p1 p2 h1 h2 hmemJ2
    obtain ⟨o2, ho2, hl2, hv2⟩ := jbx_half jobs
      (((List.range jobs.length).map (fun i : ℕ => (i : ℤ))).filter
        fun e => decide (e ∉ jobset1))
      jobset1 p2 p1 h2 h1 hmemJ1
    refine ⟨o1, o2, ?_, hl1, hl2, hv1, hv2⟩
    simp only [jobBasedCrossover, ho1, Option.some_bind, ho2]
    rfl

/-- C2 witness: both crossovers evaluated on the legal parents `[0,1]` and
  `[1,0]` of a 2-job instance with sampled job set `{1}`. -/
theorem C2_crossovers_witness :
    (∃ o1 o2, precedenceOperationCrossover [(1 : ℤ)] [0, 1] [1, 0] = some (o1, o2) ∧
      o1.length = ([0, 1] : List ℤ).length ∧ o2.length = ([1, 0] : List ℤ).length ∧
      osValidZ jobsPair o1 ∧ osValidZ jobsPair o2) ∧
    (∃ o1 o2, jobBasedCrossover jobsPair.length [(1 : ℤ)] [0, 1] [1, 0] = some (o1, o2) ∧
      o1.length = ([0, 1] : List ℤ).length ∧ o2.length = ([1, 0] : List ℤ).length ∧
      osValidZ jobsPair o1 ∧ osValidZ jobsPair o2) :=
  C2_crossovers_preserve_multiplicity jobsPair [(1 : ℤ)] [0, 1] [1, 0]
    (by constructor <;> [decide; constructor <;> decide])
    (by constructor <;> [decide; constructor <;> decide])

/-! ## C9: population-level crossover -/

theorem jobset2_mem (J : ℕ) (S : List ℤ) : ∀ j : ℕ, j < J →
    ((j : ℤ) ∈ ((List.range J).map (fun i : ℕ => (i : ℤ))).filter
      (fun e => decide (e ∉ S)) ↔ (j : ℤ) ∉ S) := by
  intro j hj
  constructor
  · intro h
    rcases List.mem_filter.1 h with ⟨_, hdec⟩
    simpa using hdec
  · intro h
    refine List.mem_filter.2 ⟨?_, by simpa using h⟩
    exact List.mem_map.2 ⟨j, List.mem_range.2 hj, rfl⟩

theorem crossoverOS_some (jobs : List (List (List MachineOption))) (choice : Bool)
    (S : List ℤ) (p1 p2 : List ℤ) (h1 : osValidZ jobs p1) (h2 : osValidZ jobs p2) :
    ∃ o12, crossoverOS jobs.length choice S p1 p2 = some o12 := by
  cases choice
  · have hm1 := jobset2_mem jobs.length S
    have hm2 : ∀ j : ℕ, j < jobs.length →
        ((j : ℤ) ∈ S ↔ (j : ℤ) ∉ ((List.range jobs.length).map (fun i : ℕ => (i : ℤ))).filter
          (fun e => decide (e ∉ S))) := by
      intro j hj
      have := hm1 j hj
      tauto
    obtain ⟨o1, ho1, -, -⟩ := jbx_half jobs S
      (((List.range jobs.length).map (fun i : ℕ => (i : ℤ))).filter fun e => decide (e ∉ S))
      p1 p2 h1 h2 hm1
    obtain ⟨o2, ho2, -, -⟩ := jbx_half jobs
      (((List.range jobs.length).map (fun i : ℕ => (i : ℤ))).filter fun e => decide (e ∉ S))
      S p2 p1 h2 h1 hm2
    refine ⟨(o1, o2), ?_⟩
    simp only [crossoverOS, Bool.false_eq_true, if_false, jobBasedCrossover, ho1,
      Option.some_bind, ho2]
    rfl
  · obtain ⟨o1, ho1, -, -⟩ := pox_half jobs S p1 p2 h1 h2
    obtain ⟨o2, ho2, -, -⟩ := pox_half jobs S p2 p1 h2 h1
    refine ⟨(o1, o2), ?_⟩
    simp [crossoverOS, precedenceOperationCrossover, ho1, ho2]

theorem crossover_even_aux (jobs : List (List (List MachineOption))) (rnd : ℕ → PairRand) :
    ∀ (n : ℕ) (pop : List (List ℤ × List ℕ)) (t : ℕ), pop.length ≤ n →
    2 ∣ pop.length → (∀ c ∈ pop, osValidZ jobs c.1) →
    ∃ newPop, crossover jobs.length rnd t pop = some newPop ∧
      newPop.length = pop.length := by
  intro n
  induction n with
  | zero =>
    intro pop t hlen _ _
    have : pop = [] := List.eq_nil_of_length_eq_zero (by omega)
    subst this
    exact ⟨[], rfl, rfl⟩
  | succ n ih =>
    intro pop t hlen hdvd hval
    match pop with
    | [] => exact ⟨[], rfl, rfl⟩
    | [c] =>
      exfalso
      simp only [List.length_cons, List.length_nil] at hdvd
      omega
    | c1 :: c2 :: rest =>
      have hr : rest.length ≤ n := by
        simp only [List.length_cons] at hlen
        omega
      have hrd : 2 ∣ rest.length := by
        simp only [List.length_cons] at hdvd ⊢
        omega
      have hrv : ∀ c ∈ rest, osValidZ jobs c.1 := fun c hc =>
        hval c (List.mem_cons_of_mem _ (List.mem_cons_of_mem _ hc))
      obtain ⟨tail, htail, htlen⟩ := ih rest (t + 1) hr hrd hrv
      by_cases hdo : (rnd t).doCross
      · obtain ⟨o12, ho12⟩ := crossoverOS_some jobs (rnd t).osChoice (rnd t).jobset1
          c1.1 c2.1 (hval c1 (List.mem_cons_self _ _))
          (hval c2 (List.mem_cons_of_mem _ (List.mem_cons_self _ _)))
        refine ⟨(o12.1, (twoPointCrossover c1.2 c2.2 (rnd t).pos1 (rnd t).pos2).1) ::
          (o12.2, (twoPointCrossover c1.2 c2.2 (rnd t).pos1 (rnd t).pos2).2) :: tail, ?_, ?_⟩
        · simp only [crossover, hdo, if_true, ho12, Option.some_bind, htail]
          rfl
        · simp [htlen]
      · refine ⟨c1 :: c2 :: tail, ?_, by simp [htlen]⟩
        simp only [crossover, hdo, Bool.false_eq_true, if_false, htail, Option.some_bind]
        rfl

/-- C9 counterexample: on a singleton population the pairwise loop reads
  `population[i + 1]` past the end of the list and raises `IndexError`
  (modelled `none`): the last individual of an odd population is *not*
  carried through unchanged, the call fails. -/
theorem C9_counterexample :
    crossover 1 (fun _ => pairRand0) 0 [([0], [0])] = none := rfl

/-- C9 (amended): population-level crossover is defined only for even
  population sizes.  For every even population of legal chromosomes (and
  every draw of the per-pair randomness) it returns a population of exactly
  the same size; for an odd population the access `population[i+1]` on the
  trailing singleton raises `IndexError` instead of carrying the last
  individual through (see the counterexample). -/
theorem C9_crossover_even (jobs : List (List (List MachineOption)))
    (rnd : ℕ → PairRand) (pop : List (List ℤ × List ℕ)) (t : ℕ)
    (hdvd : 2 ∣ pop.length) (hval : ∀ c ∈ pop, osValidZ jobs c.1) :
    ∃ newPop, crossover jobs.length rnd t pop = some newPop ∧
      newPop.length = pop.length :=
  crossover_even_aux jobs rnd pop.length pop t (le_refl _) hdvd hval

/-- C9 witness: the amended statement on an even population of two legal
  chromosomes with crossover enabled for every pair. -/
theorem C9_crossover_even_witness :
    ∃ newPop, crossover jobsPair.length (fun _ => ⟨true, true, [1], 0, 1⟩) 0
        [([0, 1], [0, 0]), ([1, 0], [0, 0])] = some newPop ∧
      newPop.length = ([([0, 1], [0, 0]), ([1, 0], [0, 0])] :
        List (List ℤ × List ℕ)).length :=
  C9_crossover_even jobsPair (fun _ => ⟨true, true, [1], 0, 1⟩)
    [([0, 1], [0, 0]), ([1, 0], [0, 0])] 0 (by decide)
    (by
      intro c hc
      rcases List.mem_cons.1 hc with rfl | hc
      · exact ⟨by decide, by decide, by decide⟩
      · rcases List.mem_cons.1 hc with rfl | hc
        · exact ⟨by decide, by decide, by decide⟩
        · cases hc)

/-! ## C10: selection closure -/

theorem tournamentSelection_mem (pb : PbInstance) (population : List (List ℕ × List ℕ))
    (i1 i2 : ℕ) (h1 : i1 < population.length) (h2 : i2 < population.length) :
    tournamentSelection pb population i1 i2 ∈ population := by
  unfold tournamentSelection
  have ha : population.getD i1 ([], []) ∈ population := by
    rw [List.getD_eq_getElem _ _ h1]
    exact List.getElem_mem _
  have hb : population.getD i2 ([], []) ∈ population := by
    rw [List.getD_eq_getElem _ _ h2]
    exact List.getElem_mem _
  by_cases h : timeTakenD pb (population.getD i2 ([], [])) <
      timeTakenD pb (population.getD i1 ([], []))
  · rw [if_pos h]
    exact hb
  · rw [if_neg h]
    exact ha

/-- C10: selection (elitist slice + binary tournaments) returns a population
  of exactly the input's length, every member of which is (by value) an
  element of the input population — for every elitist quota, every nonempty
  population and every in-range sequence of tournament index draws. -/
theorem C10_selection_closure (pb : PbInstance) (kp : ℕ)
    (population : List (List ℕ × List ℕ)) (draws : ℕ → ℕ × ℕ)
    (hne : population ≠ [])
    (hdr : ∀ t, (draws t).1 < population.length ∧ (draws t).2 < population.length) :
    (selection pb kp population draws).length = population.length ∧
    ∀ c ∈ selection pb kp population draws, c ∈ population := by
  have hperm := List.perm_insertionSort
    (fun a b => timeTakenD pb a ≤ timeTakenD pb b) population
  have hslen : (population.insertionSort
      fun a b => timeTakenD pb a ≤ timeTakenD pb b).length = population.length :=
    List.length_insertionSort _ _
  have helen : (elitistSelection pb kp population).length = min kp population.length := by
    simp [elitistSelection, List.length_take, hslen]
  constructor
  · simp only [selection, List.length_append, List.length_map, List.length_range, helen]
    have : min kp population.length ≤ population.length := Nat.min_le_right _ _
    omega
  · intro c hc
    simp only [selection] at hc
    rcases List.mem_append.1 hc with hc | hc
    · have hc2 : c ∈ population.insertionSort
          fun a b => timeTakenD pb a ≤ timeTakenD pb b := by
        simp only [elitistSelection] at hc
        exact List.mem_of_mem_take hc
      exact hperm.mem_iff.1 hc2
    · rcases List.mem_map.1 hc with ⟨t, -, rfl⟩
      exact tournamentSelection_mem pb population _ _ (hdr t).1 (hdr t).2

/-- C10 witness: selection on the singleton population of the 1-machine,
  1-operation instance with quota 0 and constant index draws. -/
theorem C10_selection_closure_witness :
    (selection ⟨1, [[[⟨1, 1⟩]]]⟩ 0 [([0], [0])] fun _ => (0, 0)).length =
      ([([0], [0])] : List (List ℕ × List ℕ)).length ∧
    ∀ c ∈ selection ⟨1, [[[⟨1, 1⟩]]]⟩ 0 [([0], [0])] fun _ => (0, 0),
      c ∈ ([([0], [0])] : List (List ℕ × List ℕ)) :=
  C10_selection_closure ⟨1, [[[⟨1, 1⟩]]]⟩ 0 [([0], [0])] (fun _ => (0, 0))
    (by simp) (fun _ => ⟨Nat.one_pos, Nat.one_pos⟩)

/-! ## C1: the decoder -/

theorem covers_false_disjoint (mj : List Placement) (s dur : ℕ) (hd : 1 ≤ dur)
    (h : ∀ i, s ≤ i → i < s + dur → covers mj i = false) :
    ∀ p ∈ mj, 1 ≤ p.duration → s + dur ≤ p.start ∨ p.start + p.duration ≤ s := by
  intro p hp hp1
  by_contra hcon
  push_neg at hcon
  obtain ⟨hc1, hc2⟩ := hcon
  have hi1 : s ≤ max s p.start := le_max_left _ _
  have hi2 : max s p.start < s + dur := max_lt_iff.2 ⟨by omega, by omega⟩
  have hcf := h (max s p.start) hi1 hi2
  rw [covers, List.any_eq_false] at hcf
  have hp2 := hcf p hp
  simp only [decide_eq_true_eq] at hp2
  have hge : p.start ≤ max s p.start := le_max_right _ _
  have hlt : max s p.start < p.start + p.duration := max_lt_iff.2 ⟨by omega, by omega⟩
  exact hp2 ⟨hge, hlt⟩

theorem covers_true_overlap (mj : List Placement) (i t dur : ℕ)
    (h : covers mj i = true) (h1 : t ≤ i) (h2 : i < t + dur) :
    ∃ p ∈ mj, p.start < t + dur ∧ t < p.start + p.duration := by
  rw [covers, List.any_eq_true] at h
  obtain ⟨p, hp, hdec⟩ := h
  simp only [decide_eq_true_eq] at hdec
  exact ⟨p, hp, by omega, by omega⟩

/-- The gap search places at the least feasible start: it succeeds, the
  result respects the start constraint, avoids every placed interval, and
  every earlier candidate start overlaps some placed interval. -/
theorem ffap_minimal (ctr dur : ℕ) (mj : List Placement) (hd : 1 ≤ dur)
    (hmj : ∀ p ∈ mj, 1 ≤ p.duration) :
    ∃ s, find_first_available_place ctr dur mj = some s ∧ ctr ≤ s ∧
      (∀ p ∈ mj, s + dur ≤ p.start ∨ p.start + p.duration ≤ s) ∧
      ∀ t, ctr ≤ t → t < s → ∃ p ∈ mj, p.start < t + dur ∧ t < p.start + p.duration := by
  obtain ⟨s, hs, hctr, -, hfree, hblock⟩ := ffap_core ctr dur mj hd
  refine ⟨s, hs, hctr,
    fun p hp => covers_false_disjoint mj s dur hd hfree p hp (hmj p hp), ?_⟩
  intro t h1 h2
  obtain ⟨i, hi1, hi2, hi3⟩ := hblock t h1 h2
  exact covers_true_overlap mj i t dur hi3 hi1 hi2

theorem getD_map_nil (l : List (List PlacementA)) (m : ℕ) :
    (l.map (List.map projPlacement)).getD m [] = (l.getD m []).map projPlacement := by
  by_cases h : m < l.length
  · rw [List.getD_eq_getElem _ _ (by simpa using h), List.getD_eq_getElem _ _ h]
    simp
  · rw [List.getD_eq_default _ _ (by simpa using not_lt.1 h),
      List.getD_eq_default _ _ (not_lt.1 h)]
    rfl

theorem decodeStep_proj (o : List (List (List MachineOption))) (ms_s : List (List ℕ))
    (st : DecodeStateA) (j : ℕ) :
    decodeStep o ms_s (projState st) j =
      Option.map projState (decodeStepA o ms_s st j) := by
  simp only [decodeStep, decodeStepA, projState, getD_map_nil]
  cases hf : find_first_available_place (st.startTaskCstr.getD j 0)
      ((((o.getD j []).getD (st.indexes.getD j 0) []).getD
        ((ms_s.getD j []).getD (st.indexes.getD j 0) 0) ⟨0, 0⟩).processingTime)
      ((st.machineOps.getD
        ((((o.getD j []).getD (st.indexes.getD j 0) []).getD
          ((ms_s.getD j []).getD (st.indexes.getD j 0) 0) ⟨0, 0⟩).machine - 1) []).map
        projPlacement) with
  | none => rfl
  | some s =>
    simp only [Option.map_some', projState, Option.some.injEq, List.map_set,
      List.map_append, List.map_cons, List.map_nil, projPlacement]

theorem decodeLoop_proj (o : List (List (List MachineOption))) (ms_s : List (List ℕ)) :
    ∀ (osl : List ℕ) (st : DecodeStateA),
    decodeLoop o ms_s osl (projState st) =
      Option.map projState (decodeLoopA o ms_s osl st) := by
  intro osl
  induction osl with
  | nil => intro st; rfl
  | cons j rest ih =>
    intro st
    simp only [decodeLoop, decodeLoopA, decodeStep_proj]
    cases hf : decodeStepA o ms_s st j with
    | none => rfl
    | some st1 => exact ih st1

theorem mem_set_self {α : Type} (l : List α) (m : ℕ) (a : α) (h : m < l.length) :
    a ∈ l.set m a := by
  have h2 : m < (l.set m a).length := by simpa using h
  have h3 : (l.set m a)[m] = a := List.getElem_set_self h2
  have h5 := List.getElem_mem h2
  rwa [h3] at h5

theorem mem_preserved_after_set (mops : List (List PlacementA)) (m : ℕ)
    (ext : List PlacementA) (hm : m < mops.length) (p : PlacementA)
    (h : ∃ l ∈ mops, p ∈ l) :
    ∃ l ∈ mops.set m (mops.getD m [] ++ ext), p ∈ l := by
  obtain ⟨l0, hl0, hp⟩ := h
  obtain ⟨i, hi, hig⟩ := List.getElem_of_mem hl0
  by_cases him : i = m
  · subst him
    refine ⟨mops.getD i [] ++ ext, mem_set_self _ _ _ hi, ?_⟩
    rw [List.getD_eq_getElem _ _ hi, hig]
    exact List.mem_append_left _ hp
  · refine ⟨l0, ?_, hp⟩
    have hi2 : i < (mops.set m (mops.getD m [] ++ ext)).length := by simpa using hi
    have h4 := List.getElem_set_ne (l := mops) (a := mops.getD m [] ++ ext)
      (fun hh => him hh.symm) hi2
    rw [← hig, ← h4]
    exact List.getElem_mem hi2

/-- The decode-loop invariant is preserved by appending a freshly placed
  operation `⟨j, k, dur, ctr, s⟩` to machine `m` and bumping job `j`'s
  operation index and readiness time — provided the new start `s` respects
  the constraint `ctr` (the job's readiness) and avoids every interval
  already placed on machine `m`. -/
theorem stepState_inv (J M : ℕ) (st : DecodeStateA) (inv : DecInv J M st)
    (j k m dur ctr s : ℕ) (hj : j < J) (hm : m < M)
    (hkidx : st.indexes.getD j 0 = k) (hctr : st.startTaskCstr.getD j 0 = ctr)
    (hdur : 1 ≤ dur) (hsctr : ctr ≤ s)
    (hdisj : ∀ q ∈ st.machineOps.getD m [], s + dur ≤ q.start ∨ q.start + q.duration ≤ s) :
    DecInv J M ⟨st.machineOps.set m ((st.machineOps.getD m []) ++ [⟨j, k, dur, ctr, s⟩]),
      st.indexes.set j (k + 1), st.startTaskCstr.set j (s + dur)⟩ := by
  have hjlen : j < st.indexes.length := by rw [inv.idxLen]; exact hj
  have hjclen : j < st.startTaskCstr.length := by rw [inv.cstrLen]; exact hj
  have hmlen : m < st.machineOps.length := by rw [inv.mopsLen]; exact hm
  have hmj_mem : st.machineOps.getD m [] ∈ st.machineOps := by
    rw [List.getD_eq_getElem _ _ hmlen]
    exact List.getElem_mem _
  have hsrc : ∀ l ∈ st.machineOps.set m ((st.machineOps.getD m []) ++
      [⟨j, k, dur, ctr, s⟩]), ∀ p ∈ l,
      (∃ l0 ∈ st.machineOps, p ∈ l0) ∨ p = (⟨j, k, dur, ctr, s⟩ : PlacementA) := by
    intro l hl p hp
    rcases List.mem_or_eq_of_mem_set hl with hl | rfl
    · exact Or.inl ⟨l, hl, hp⟩
    · rcases List.mem_append.1 hp with hp | hp
      · exact Or.inl ⟨st.machineOps.getD m [], hmj_mem, hp⟩
      · rcases List.mem_cons.1 hp with rfl | hp
        · exact Or.inr rfl
        · cases hp
  refine ⟨?_, ?_, ?_, ?_, ?_, ?_, ?_, ?_, ?_, ?_, ?_⟩
  · rw [List.length_set]
    exact inv.idxLen
  · rw [List.length_set]
    exact inv.cstrLen
  · rw [List.length_set]
    exact inv.mopsLen
  · -- pairwiseDisj
    intro l hl
    rcases List.mem_or_eq_of_mem_set hl with hl | rfl
    · exact inv.pairwiseDisj l hl
    · rw [List.pairwise_append]
      refine ⟨inv.pairwiseDisj _ hmj_mem, by simp, ?_⟩
      intro a ha b hb
      rcases List.mem_cons.1 hb with rfl | hb
      · rcases hdisj a ha with h | h
        · right
          simpa using h
        · left
          simpa using h
      · cases hb
  · -- startGe
    intro l hl p hp
    rcases hsrc l hl p hp with ⟨l0, hl0, hp0⟩ | rfl
    · exact inv.startGe l0 hl0 p hp0
    · simpa using hsctr
  · -- durPos
    intro l hl p hp
    rcases hsrc l hl p hp with ⟨l0, hl0, hp0⟩ | rfl
    · exact inv.durPos l0 hl0 p hp0
    · simpa using hdur
  · -- jobLt
    intro l hl p hp
    rcases hsrc l hl p hp with ⟨l0, hl0, hp0⟩ | rfl
    · exact inv.jobLt l0 hl0 p hp0
    · simpa using hj
  · -- opIdxLt
    intro l hl p hp
    rcases hsrc l hl p hp with ⟨l0, hl0, hp0⟩ | rfl
    · have hold := inv.opIdxLt l0 hl0 p hp0
      by_cases hpj : p.job = j
      · rw [hpj, getD_set_self _ _ _ hjlen]
        rw [hpj, hkidx] at hold
        omega
      · rw [getD_set_ne _ _ (fun hh => hpj hh.symm)]
        exact hold
    · simp only [getD_set_self _ _ _ hjlen]
      omega
  · -- uniq
    intro l1 hl1 l2 hl2 p hp q hq hjob hop
    rcases hsrc l1 hl1 p hp with ⟨l0, hl0, hp0⟩ | rfl
    · rcases hsrc l2 hl2 q hq with ⟨l0', hl0', hq0⟩ | rfl
      · exact inv.uniq l0 hl0 l0' hl0' p hp0 q hq0 hjob hop
      · exfalso
        have hold := inv.opIdxLt l0 hl0 p hp0
        simp only at hjob hop
        rw [hjob, hkidx] at hold
        omega
    · rcases hsrc l2 hl2 q hq with ⟨l0', hl0', hq0⟩ | rfl
      · exfalso
        have hold := inv.opIdxLt l0' hl0' q hq0
        simp only at hjob hop
        rw [← hjob, hkidx] at hold
        omega
      · rfl
  · -- cstrLink
    intro j' hj' k' hk'
    by_cases hjj : j' = j
    · subst hjj
      rw [getD_set_self _ _ _ hjlen] at hk'
      have hkk : k' = k := by omega
      subst hkk
      refine ⟨(st.machineOps.getD m []) ++ [⟨j', k', dur, ctr, s⟩],
        mem_set_self _ _ _ hmlen, ⟨j', k', dur, ctr, s⟩, ?_, rfl, rfl, ?_⟩
      · exact List.mem_append_right _ (List.mem_cons_self _ _)
      · rw [getD_set_self _ _ _ hjclen]
    · rw [getD_set_ne _ _ (fun hh => hjj hh.symm)] at hk'
      obtain ⟨l0, hl0, p, hp, hpj, hpo, hcs⟩ := inv.cstrLink j' hj' k' hk'
      obtain ⟨l', hl', hp'⟩ := mem_preserved_after_set st.machineOps m
        [⟨j, k, dur, ctr, s⟩] hmlen p ⟨l0, hl0, hp⟩
      refine ⟨l', hl', p, hp', hpj, hpo, ?_⟩
      rw [getD_set_ne _ _ (fun hh => hjj hh.symm)]
      exact hcs
  · -- prec
    intro l1 hl1 l2 hl2 p hp q hq hjob hop
    rcases hsrc l1 hl1 p hp with ⟨l0, hl0, hp0⟩ | rfl
    · rcases hsrc l2 hl2 q hq with ⟨l0', hl0', hq0⟩ | rfl
      · exact inv.prec l0 hl0 l0' hl0' p hp0 q hq0 hjob hop
      · -- q is the new placement: its startCstr is the job readiness,
        -- which the invariant links to the previous operation of the job
        simp only at hjob hop ⊢
        have hidx : st.indexes.getD j 0 = p.opIdx + 1 := by
          rw [hkidx]
          omega
        obtain ⟨l1', hl1', pstar, hpstar, hpj, hpo, hcs⟩ :=
          inv.cstrLink j hj p.opIdx hidx
        have hpeq : p = pstar := by
          refine inv.uniq l0 hl0 l1' hl1' p hp0 pstar hpstar ?_ ?_
          · rw [hpj]
            exact hjob.symm
          · exact hpo.symm
        rw [← hctr, hcs, hpeq]
    · rcases hsrc l2 hl2 q hq with ⟨l0', hl0', hq0⟩ | rfl
      · exfalso
        have hold := inv.opIdxLt l0' hl0' q hq0
        simp only at hjob hop
        rw [hjob, hkidx] at hold
        omega
      · simp only at hop
        omega

theorem decodeStepA_inv (pb : PbInstance) (ms_s : List (List ℕ)) (hpb : pbValidPos pb)
    (hms : ∀ j' < pb.jobs.length,
      (ms_s.getD j' []).length = (pb.jobs.getD j' []).length ∧
      ∀ k' < (pb.jobs.getD j' []).length,
        (ms_s.getD j' []).getD k' 0 < ((pb.jobs.getD j' []).getD k' []).length)
    (st : DecodeStateA) (j : ℕ) (hj : j < pb.jobs.length)
    (hk : st.indexes.getD j 0 < (pb.jobs.getD j []).length)
    (inv : DecInv pb.jobs.length pb.machinesNb st) :
    ∃ st', decodeStepA pb.jobs ms_s st j = some st' ∧
      DecInv pb.jobs.length pb.machinesNb st' ∧
      st'.indexes = st.indexes.set j (st.indexes.getD j 0 + 1) := by
  have hmi : (ms_s.getD j []).getD (st.indexes.getD j 0) 0 <
      ((pb.jobs.getD j []).getD (st.indexes.getD j 0) []).length :=
    (hms j hj).2 _ hk
  have hopt_mem : ((pb.jobs.getD j []).getD (st.indexes.getD j 0) []).getD
      ((ms_s.getD j []).getD (st.indexes.getD j 0) 0) ⟨0, 0⟩ ∈
      (pb.jobs.getD j []).getD (st.indexes.getD j 0) [] := by
    rw [List.getD_eq_getElem _ _ hmi]
    exact List.getElem_mem _
  have hop_mem : (pb.jobs.getD j []).getD (st.indexes.getD j 0) [] ∈
      pb.jobs.getD j [] := by
    rw [List.getD_eq_getElem _ _ hk]
    exact List.getElem_mem _
  have hjob_mem : pb.jobs.getD j [] ∈ pb.jobs := by
    rw [List.getD_eq_getElem _ _ hj]
    exact List.getElem_mem _
  obtain ⟨⟨hm1, hm2⟩, hdur⟩ := hpb _ hjob_mem _ hop_mem _ hopt_mem
  have hmlt : (((pb.jobs.getD j []).getD (st.indexes.getD j 0) []).getD
      ((ms_s.getD j []).getD (st.indexes.getD j 0) 0) ⟨0, 0⟩).machine - 1 <
      st.machineOps.length := by
    rw [inv.mopsLen]
    omega
  have hmjdur : ∀ q ∈ (st.machineOps.getD
      ((((pb.jobs.getD j []).getD (st.indexes.getD j 0) []).getD
        ((ms_s.getD j []).getD (st.indexes.getD j 0) 0) ⟨0, 0⟩).machine - 1) []).map
      projPlacement, 1 ≤ q.duration := by
    intro q hq
    obtain ⟨p, hp, rfl⟩ := List.mem_map.1 hq
    refine inv.durPos _ ?_ p hp
    rw [List.getD_eq_getElem _ _ hmlt]
    exact List.getElem_mem _
  obtain ⟨s0, hff, hsctr, hdisjM, -⟩ :=
    ffap_minimal (st.startTaskCstr.getD j 0) _ _ hdur hmjdur
  simp only [decodeStepA]
  rw [hff]
  refine ⟨_, rfl, ?_, rfl⟩
  refine stepState_inv pb.jobs.length pb.machinesNb st inv j (st.indexes.getD j 0)
    _ _ _ s0 hj ?_ rfl rfl hdur hsctr ?_
  · rw [← inv.mopsLen]
    exact hmlt
  · intro q hq
    have hd := hdisjM (projPlacement q) (List.mem_map_of_mem _ hq)
    simpa [projPlacement] using hd

theorem decodeLoopA_inv (pb : PbInstance) (ms_s : List (List ℕ)) (hpb : pbValidPos pb)
    (hms : ∀ j' < pb.jobs.length,
      (ms_s.getD j' []).length = (pb.jobs.getD j' []).length ∧
      ∀ k' < (pb.jobs.getD j' []).length,
        (ms_s.getD j' []).getD k' 0 < ((pb.jobs.getD j' []).getD k' []).length) :
    ∀ (osl : List ℕ) (st : DecodeStateA),
    DecInv pb.jobs.length pb.machinesNb st →
    (∀ e ∈ osl, e < pb.jobs.length) →
    (∀ j' < pb.jobs.length,
      st.indexes.getD j' 0 + osl.count j' = (pb.jobs.getD j' []).length) →
    ∃ st', decodeLoopA pb.jobs ms_s osl st = some st' ∧
      DecInv pb.jobs.length pb.machinesNb st' := by
  intro osl
  induction osl with
  | nil =>
    intro st inv _ _
    exact ⟨st, rfl, inv⟩
  | cons j rest ih =>
    intro st inv helem hcnt
    have hj : j < pb.jobs.length := helem j (List.mem_cons_self _ _)
    have hcj := hcnt j hj
    have hcc : (j :: rest).count j = rest.count j + 1 := by
      simp [List.count_cons]
    have hk : st.indexes.getD j 0 < (pb.jobs.getD j []).length := by omega
    obtain ⟨st1, hstep, inv1, hidx1⟩ := decodeStepA_inv pb ms_s hpb hms st j hj hk inv
    have helem1 : ∀ e ∈ rest, e < pb.jobs.length := fun e he =>
      helem e (List.mem_cons_of_mem _ he)
    have hcnt1 : ∀ j' < pb.jobs.length,
        st1.indexes.getD j' 0 + rest.count j' = (pb.jobs.getD j' []).length := by
      intro j' hj'
      rw [hidx1]
      have h2 := hcnt j' hj'
      by_cases hjj : j' = j
      · subst hjj
        rw [getD_set_self _ _ _ (by rw [inv.idxLen]; exact hj')]
        omega
      · rw [getD_set_ne _ _ (fun hh => hjj hh.symm)]
        have h3 : (j :: rest).count j' = rest.count j' := by
          rw [List.count_cons]
          simp [show j ≠ j' from fun hh => hjj hh.symm]
        omega
    obtain ⟨st', hloop, inv'⟩ := ih st1 inv1 helem1 hcnt1
    refine ⟨st', ?_, inv'⟩
    simp only [decodeLoopA]
    rw [hstep]
    exact hloop

theorem splitMsGo_length (jobs : List (List (List MachineOption))) :
    ∀ ms : List ℕ, (splitMsGo jobs ms).length = jobs.length := by
  induction jobs with
  | nil => intro ms; rfl
  | cons job rest ih =>
    intro ms
    simp [splitMsGo, ih]

theorem split_ms_length (pb : PbInstance) (ms : List ℕ) :
    (split_ms pb ms).length = pb.jobs.length :=
  splitMsGo_length pb.jobs ms

/-- C1 counterexample: on the valid instance with a single operation of
  processing time 0 (the data model allows `processing_time ≥ 0`) and its
  unique legal chromosome, the decoder does not place the operation at its
  smallest feasible start 0: `find_first_available_place` returns `None` and
  `decode` crashes (`None + prcTime` raises `TypeError` in Python, modelled
  `none`). -/
theorem C1_counterexample :
    decode pbZero [0] [0] = none ∧ osValid pbZero.jobs [0] ∧ msValid pbZero [0] := by
  refine ⟨rfl, ?_, ?_⟩
  · refine ⟨by decide, by decide, by decide⟩
  · refine ⟨by decide, by decide⟩

/-- C1 (amended to instances whose processing times are all positive): for
  every such valid instance and every legal chromosome `(OS, MS)` the decoder
  succeeds, and — as witnessed by the instrumented decoder `decodeA`, whose
  erasure is exactly `decode` — (i) placements on any one machine never
  overlap, (ii) every placement starts no earlier than its job-readiness
  constraint, (iii) consecutive operations of a job satisfy
  `start[k+1] ≥ start[k] + dur[k]` with the readiness constraint equal to the
  predecessor's completion, and (iv) the gap search that produced every start
  returns the smallest start `≥` the readiness time whose interval overlaps
  no interval already placed on that machine. -/
theorem C1_decoder (pb : PbInstance) (os ms : List ℕ) (hpb : pbValidPos pb)
    (hos : osValid pb.jobs os) (hms : msValid pb ms) :
    ∃ mopsA : List (List PlacementA),
      decodeA pb os ms = some mopsA ∧
      decode pb os ms = some (mopsA.map (List.map projPlacement)) ∧
      (∀ sched ∈ mopsA, sched.Pairwise fun p q : PlacementA =>
        p.start + p.duration ≤ q.start ∨ q.start + q.duration ≤ p.start) ∧
      (∀ sched ∈ mopsA, ∀ p ∈ sched, p.startCstr ≤ p.start) ∧
      (∀ s1 ∈ mopsA, ∀ s2 ∈ mopsA, ∀ p ∈ s1, ∀ q ∈ s2,
        q.job = p.job → q.opIdx = p.opIdx + 1 →
        q.startCstr = p.start + p.duration ∧ p.start + p.duration ≤ q.start) ∧
      (∀ (ctr dur : ℕ) (mj : List Placement), 1 ≤ dur →
        (∀ p ∈ mj, 1 ≤ p.duration) →
        ∃ s, find_first_available_place ctr dur mj = some s ∧ ctr ≤ s ∧
          (∀ p ∈ mj, s + dur ≤ p.start ∨ p.start + p.duration ≤ s) ∧
          ∀ t, ctr ≤ t → t < s →
            ∃ p ∈ mj, p.start < t + dur ∧ t < p.start + p.duration) := by
  have hinitinv : DecInv pb.jobs.length pb.machinesNb
      ⟨List.replicate pb.machinesNb [], List.replicate (split_ms pb ms).length 0,
        List.replicate (split_ms pb ms).length 0⟩ := by
    refine ⟨?_, ?_, ?_, ?_, ?_, ?_, ?_, ?_, ?_, ?_, ?_⟩
    · simp [split_ms_length]
    · simp [split_ms_length]
    · simp
    · intro l hl
      rw [List.eq_of_mem_replicate hl]
      exact List.Pairwise.nil
    · intro l hl p hp
      rw [List.eq_of_mem_replicate hl] at hp
      cases hp
    · intro l hl p hp
      rw [List.eq_of_mem_replicate hl] at hp
      cases hp
    · intro l hl p hp
      rw [List.eq_of_mem_replicate hl] at hp
      cases hp
    · intro l hl p hp
      rw [List.eq_of_mem_replicate hl] at hp
      cases hp
    · intro l1 hl1 l2 hl2 p hp q hq _ _
      rw [List.eq_of_mem_replicate hl1] at hp
      cases hp
    · intro j' hj' k' hk'
      rw [getD_replicate_zero _ _ (by rw [split_ms_length]; exact hj')] at hk'
      omega
    · intro l1 hl1 l2 hl2 p hp q hq _ _
      rw [List.eq_of_mem_replicate hl1] at hp
      cases hp
  have hcnt0 : ∀ j' < pb.jobs.length,
      (List.replicate (split_ms pb ms).length 0).getD j' 0 + os.count j' =
        (pb.jobs.getD j' []).length := by
    intro j' hj'
    rw [getD_replicate_zero _ _ (by rw [split_ms_length]; exact hj')]
    simpa using hos.2.2 j' hj'
  obtain ⟨st', hloop, inv'⟩ := decodeLoopA_inv pb (split_ms pb ms) hpb hms.2 os
    ⟨List.replicate pb.machinesNb [], List.replicate (split_ms pb ms).length 0,
      List.replicate (split_ms pb ms).length 0⟩ hinitinv hos.2.1 hcnt0
  have hinitproj : projState ⟨List.replicate pb.machinesNb [],
      List.replicate (split_ms pb ms).length 0,
      List.replicate (split_ms pb ms).length 0⟩ =
      (⟨List.replicate pb.machinesNb [], List.replicate (split_ms pb ms).length 0,
        List.replicate (split_ms pb ms).length 0⟩ : DecodeState) := by
    simp [projState, List.map_replicate]
  refine ⟨st'.machineOps, ?_, ?_, ?_, ?_, ?_, ?_⟩
  · simp only [decodeA]
    rw [hloop]
    rfl
  · simp only [decode]
    rw [← hinitproj, decodeLoop_proj, hloop]
    rfl
  · exact inv'.pairwiseDisj
  · exact inv'.startGe
  · intro s1 hs1 s2 hs2 p hp q hq hjob hop
    have he := inv'.prec s1 hs1 s2 hs2 p hp q hq hjob hop
    have hge := inv'.startGe s2 hs2 q hq
    exact ⟨he, by omega⟩
  · intro ctr dur mj hd hmj
    exact ffap_minimal ctr dur mj hd hmj

/-- C1 witness: the amended decoder correctness at the valid gap instance
  with legal chromosome OS = `[0,0,1]`, MS = `[0,0,0]`. -/
theorem C1_decoder_witness :
    ∃ mopsA : List (List PlacementA),
      decodeA pbGapW [0, 0, 1] [0, 0, 0] = some mopsA ∧
      decode pbGapW [0, 0, 1] [0, 0, 0] = some (mopsA.map (List.map projPlacement)) ∧
      (∀ sched ∈ mopsA, sched.Pairwise fun p q : PlacementA =>
        p.start + p.duration ≤ q.start ∨ q.start + q.duration ≤ p.start) ∧
      (∀ sched ∈ mopsA, ∀ p ∈ sched, p.startCstr ≤ p.start) ∧
      (∀ s1 ∈ mopsA, ∀ s2 ∈ mopsA, ∀ p ∈ s1, ∀ q ∈ s2,
        q.job = p.job → q.opIdx = p.opIdx + 1 →
        q.startCstr = p.start + p.duration ∧ p.start + p.duration ≤ q.start) ∧
      (∀ (ctr dur : ℕ) (mj : List Placement), 1 ≤ dur →
        (∀ p ∈ mj, 1 ≤ p.duration) →
        ∃ s, find_first_available_place ctr dur mj = some s ∧ ctr ≤ s ∧
          (∀ p ∈ mj, s + dur ≤ p.start ∨ p.start + p.duration ≤ s) ∧
          ∀ t, ctr ≤ t → t < s →
            ∃ p ∈ mj, p.start < t + dur ∧ t < p.start + p.duration) :=
  C1_decoder pbGapW [0, 0, 1] [0, 0, 0]
    (by
      intro job hjob op hop opt hopt
      fin_cases hjob <;> fin_cases hop <;> fin_cases hopt <;> exact ⟨⟨by decide, by decide⟩, by decide⟩)
    (⟨by decide, by decide, by decide⟩)
    (⟨by decide, by decide⟩)
